import Mathlib

/-!
Verification development for the Sora invite hunter polling service
(`sora_hunt.py`).  The Python source is shallowly embedded: strings are
`List Char` (ASCII-level model of Python's unicode handling: `upper`,
`lower` and the `\w`/whitespace character classes are modelled on the
ASCII range), floats are `ℚ` (exact arithmetic model of the float
formulas), the mutable module state is an explicit `AppState` record
threaded through the functions, and exceptions are `Except` values.
-/

set_option maxRecDepth 4000
set_option linter.unusedVariables false

namespace SoraHunt

/-- Character class `[A-Z0-9]` of `TOKEN_PATTERN = re.compile(r"\b[A-Z0-9]{5,12}\b")`:
`Char.isUpper` is exactly the `A`-`Z` range. -/
def tokChar (c : Char) : Bool :=
  c.isUpper || c.isDigit

/-- Regex word character `\w` (ASCII model): letters, digits or underscore. -/
def wordChar (c : Char) : Bool :=
  c.isAlphanum || c == '_'

/-- Matching semantics of `TOKEN_PATTERN.findall(text)`: the pattern
`\b[A-Z0-9]{5,12}\b` matches exactly the maximal `[A-Z0-9]` runs of length
5 to 12 whose neighbours are not word characters.  The scanner walks the
string tracking whether the previous character was a word character
(`prevWord`); a run is reported when it starts at a word boundary, its
length is in `[5, 12]`, and the character following it (if any) is not a
word character. -/
def findBounded : Bool → List Char → List (List Char)
  | _, [] => []
  | prevWord, c :: rest =>
    if tokChar c && !prevWord then
      let run := c :: rest.takeWhile tokChar
      let rest2 := rest.dropWhile tokChar
      if 5 ≤ run.length && run.length ≤ 12 &&
          (match rest2.head? with
           | none => true
           | some d => !wordChar d) then
        run :: findBounded true rest2
      else
        findBounded true rest2
    else
      findBounded (wordChar c) rest
termination_by _ l => l.length
decreasing_by
  all_goals simp_wf
  all_goals exact Nat.lt_succ_of_le (List.dropWhile_sublist _).length_le

/-- Denylist of `_extract_tokens`: markup substrings that disqualify a token. -/
def DENYLIST : List (List Char) :=
  ["HTTP".toList, "HTML".toList, "JSON".toList, "XML".toList, "HTTPS".toList]

/-- Pre-deduplication candidate list of `_extract_tokens`: every pattern
match of the uppercased text that contains a digit and none of the
denylisted substrings, in match order. -/
def tokenCandidates (text : List Char) : List (List Char) :=
  (findBounded false (text.map Char.toUpper)).filter
    (fun tok => tok.any Char.isDigit &&
      !(DENYLIST.any (fun ex => decide (ex <:+: tok))))

/-- Embedding of `list(dict.fromkeys(candidates))`: remove duplicates
keeping the first occurrence of each element, preserving order. -/
def dedupKeepFirst : List (List Char) → List (List Char)
  | [] => []
  | x :: xs => x :: (dedupKeepFirst xs).filter (fun y => y ≠ x)

/-- Embedding of `_extract_tokens` (sora_hunt.py lines 514-525). -/
def extract_tokens (text : List Char) : List (List Char) :=
  dedupKeepFirst (tokenCandidates text)

/-- Fixed keyword list `INVITE_KEYWORDS`. -/
def INVITE_KEYWORDS : List (List Char) :=
  ["invite".toList, "code".toList, "beta".toList, "access".toList,
   "key".toList, "token".toList, "giveaway".toList, "sharing".toList,
   "redeem".toList, "signup".toList]

/-- Noise terms of `_calculate_confidence`. -/
def NOISE_TERMS : List (List Char) :=
  ["error".toList, "exception".toList, "stack".toList, "debug".toList]

/-- Embedding of `_calculate_confidence` (sora_hunt.py lines 496-511),
following the statement sequence of the source; the float arithmetic is
modelled exactly over `ℚ`.  The `token` argument is accepted and ignored,
as in the source. -/
def calculate_confidence (text : List Char) (token : List Char) : ℚ :=
  let text_lower := text.map Char.toLower
  let score : ℚ := 1/2
  let keyword_count :=
    (INVITE_KEYWORDS.filter (fun kw => decide (kw <:+: text_lower))).length
  let score := score + min ((keyword_count : ℚ) * (1/10)) (3/10)
  let score := if "sora".toList <:+: text_lower then score + 15/100 else score
  let score :=
    if NOISE_TERMS.any (fun w => decide (w <:+: text_lower)) then score - 3/10
    else score
  min (max score (1/10)) 1

/-- Python `str` whitespace (ASCII model): the characters stripped by
`str.strip()` and separating words in `str.split()`. -/
def isPySpace (c : Char) : Bool :=
  c == ' ' || c == '\t' || c == '\n' || c == '\r' || c == '\x0b' || c == '\x0c'

/-- Embedding of `str.strip()`: drop whitespace at both ends. -/
def pyStrip (l : List Char) : List Char :=
  (((l.dropWhile isPySpace).reverse.dropWhile isPySpace)).reverse

/-- Word accumulator of `pySplitWs` (`cur` holds the current word,
reversed). -/
def pySplitAux (cur : List Char) : List Char → List (List Char)
  | [] => if cur = [] then [] else [cur.reverse]
  | c :: rest =>
    if isPySpace c then
      if cur = [] then pySplitAux [] rest
      else cur.reverse :: pySplitAux [] rest
    else pySplitAux (c :: cur) rest

/-- Embedding of `str.split()` with no separator: split on whitespace runs,
discarding empty pieces. -/
def pySplitWs (l : List Char) : List (List Char) :=
  pySplitAux [] l

/-- Embedding of `html.escape` on one character (`&`, `<`, `>`, `"` and
the apostrophe, code point 39, are replaced by entities). -/
def escChar (c : Char) : List Char :=
  if c = '&' then "&amp;".toList
  else if c = '<' then "&lt;".toList
  else if c = '>' then "&gt;".toList
  else if c = '"' then "&quot;".toList
  else if c = Char.ofNat 39 then "&#x27;".toList
  else [c]

/-- Embedding of `html.escape` on a string. -/
def htmlEscape (l : List Char) : List Char :=
  l.foldr (fun c acc => escChar c ++ acc) []

/-- Case-insensitive character comparison, the `re.IGNORECASE` model. -/
def ciEq (a b : Char) : Bool :=
  a.toLower == b.toLower

/-- Does `needle` match case-insensitively at the head of `s`? -/
def ciPrefixOf : List Char → List Char → Bool
  | [], _ => true
  | _ :: _, [] => false
  | a :: as, b :: bs => ciEq a b && ciPrefixOf as bs

/-- Index of the first case-insensitive occurrence of `needle` in `s`:
the semantics of `re.search(re.escape(token), s, re.IGNORECASE)`. -/
def findCI (needle : List Char) : List Char → Option Nat
  | [] => if ciPrefixOf needle [] then some 0 else none
  | c :: rest =>
    if ciPrefixOf needle (c :: rest) then some 0
    else (findCI needle rest).map (· + 1)

/-- Opening highlight marker. -/
def markOpen : List Char := "<mark>".toList

/-- Closing highlight marker. -/
def markClose : List Char := "</mark>".toList

/-- The scanning loop of `_build_example_snippet` over
`pattern.finditer(snippet)`: non-matching characters are HTML-escaped one
by one, each (leftmost, non-overlapping) case-insensitive match of the
token is wrapped in `<mark>`/`</mark>` with its matched text escaped.  An
empty pattern matches at every position, as in Python `re`. -/
def highlightScan (needle : List Char) : List Char → List Char
  | [] => if ciPrefixOf needle [] then markOpen ++ markClose else []
  | c :: rest =>
    if ciPrefixOf needle (c :: rest) then
      match needle with
      | [] => markOpen ++ markClose ++ escChar c ++ highlightScan [] rest
      | a :: as =>
        markOpen ++ htmlEscape ((c :: rest).take (a :: as).length) ++ markClose ++
          highlightScan (a :: as) ((c :: rest).drop (a :: as).length)
    else escChar c ++ highlightScan needle rest
termination_by s => s.length
decreasing_by
  all_goals simp_wf
  all_goals omega

/-- Newline collapsing of the snippet window (`.replace("\n", " ")`). -/
def nlToSpace (c : Char) : Char :=
  if c = '\n' then ' ' else c

/-- The combined text of `_build_example_snippet`:
`f"{title}\n{body}".strip()`. -/
def combinedOf (title body : List Char) : List Char :=
  pyStrip (title ++ '\n' :: body)

/-- The windowed snippet of `_build_example_snippet`: a symmetric window of
radius 60 around the first case-insensitive occurrence of the token (or the
leading 200 characters when the token is absent), newlines collapsed to
spaces, then stripped. -/
def snippetOf (title body token : List Char) : List Char :=
  let combined := combinedOf title body
  let se : Nat × Nat :=
    match findCI token combined with
    | some i => (i - 60, min (i + token.length + 60) combined.length)
    | none => (0, min combined.length 200)
  pyStrip (((combined.drop se.1).take (se.2 - se.1)).map nlToSpace)

/-- Embedding of `_build_example_snippet` (sora_hunt.py lines 528-554). -/
def build_example_snippet (title body token : List Char) : List Char :=
  let combined := combinedOf title body
  if combined = [] then htmlEscape (if title = [] then token else title)
  else highlightScan token (snippetOf title body token)

/-- Capacity of the candidate ring buffer (`MAX_CANDIDATES`). -/
def MAX_CANDIDATES : Nat := 1000

/-- Capacity of the activity-log ring buffer (`MAX_LOG_ENTRIES`). -/
def MAX_LOG_ENTRIES : Nat := 500

/-- Append to a `deque(maxlen=cap)`: when the buffer is full the oldest
(leftmost) element is evicted before the new element is pushed on the
right. -/
def dequeAppend {α : Type} (cap : Nat) (buf : List α) (x : α) : List α :=
  if buf.length < cap then buf ++ [x] else buf.drop 1 ++ [x]

/-- Folding `dequeAppend` over a list of pushes, starting from the empty
buffer. -/
def appendAll {α : Type} (cap : Nat) (xs : List α) : List α :=
  xs.foldl (dequeAppend cap) []

/-- Log levels of `_log_event`. -/
inductive LogLevel where
  | info
  | debug
  | success
  | error
deriving DecidableEq

/-- Structured rendering of the log message format strings of the source.
Timestamps are abstracted to the `Nat` cycle time. -/
inductive LogMsg where
  | cycleStart (nSources : Nat)
  | newCandidate (code srcDesc : List Char) (conf : ℚ)
  | sourceOk (name : List Char) (items newCount : Nat)
  | sourceError (name exc : List Char)
  | discovered (n : Nat)
  | noneThisCycle
deriving DecidableEq

/-- Embedding of the `Candidate` dataclass; `discovered_at` is the
abstracted timestamp, `confidence_score` the exact rational value. -/
structure Candidate where
  code : List Char
  example_text : List Char
  source_title : List Char
  url : List Char
  discovered_at : Nat
  confidence_score : ℚ
  source_type : List Char
deriving DecidableEq

/-- One activity-log entry (`{"timestamp", "level", "message"}`). -/
structure LogEntry where
  timestamp : Nat
  level : LogLevel
  message : LogMsg
deriving DecidableEq

/-- Embedding of the mutable `AppState`.  The Python `set` of seen codes
is modelled as a list to which codes are consed exactly when absent (the
only mutation site checks membership first), so list membership coincides
with set membership.  The lock is elided: there is a single producer and
the embedding makes each critical section one step. -/
structure AppState where
  candidates : List Candidate
  seen_codes : List (List Char)
  last_poll : Option Nat
  activity_log : List LogEntry
  error_count : Nat
  success_count : Nat
deriving DecidableEq

/-- `AppState()` as built at import time. -/
def initialState : AppState :=
  { candidates := [], seen_codes := [], last_poll := none,
    activity_log := [], error_count := 0, success_count := 0 }

/-- Embedding of `_log_event`: append a bounded log entry. -/
def log_event (now : Nat) (st : AppState) (msg : LogMsg) (level : LogLevel) :
    AppState :=
  let entry : LogEntry := { timestamp := now, level := level, message := msg }
  { st with activity_log := dequeAppend MAX_LOG_ENTRIES st.activity_log entry }

/-- One fetched record `{title, body, url}`. -/
structure Entry where
  title : List Char
  body : List Char
  url : List Char
deriving DecidableEq

deriving instance DecidableEq for Except

/-- Embedding of `SourceSpec`, with the fetcher abstracted to this cycle's
outcome: an ordered record list or a failure message. -/
structure SourceSpec where
  name : List Char
  enabled : Bool
  rate_limit_delay : ℚ
  last_success : Option Nat
  last_error : Option Nat
  fetchResult : Except (List Char) (List Entry)
deriving DecidableEq

/-- Success-path health update (sora_hunt.py lines 620-621):
`source.last_success = _iso_now(); source.last_error = None`. -/
def applySourceSuccess (now : Nat) (s : SourceSpec) : SourceSpec :=
  { s with last_success := some now, last_error := none }

/-- Failure-path health update (sora_hunt.py line 639):
`source.last_error = _iso_now()`. -/
def applySourceFailure (now : Nat) (s : SourceSpec) : SourceSpec :=
  { s with last_error := some now }

/-- The `source_type` computation of `_process_entries`:
`source_label.split()[0].lower() if source_label else "unknown"`.  A
non-empty label consisting purely of whitespace makes `split()` return the
empty list and indexing it raise `IndexError`, modelled as `Except.error`. -/
def deriveSourceType (label : List Char) : Except Unit (List Char) :=
  if label = [] then .ok "unknown".toList
  else
    match pySplitWs label with
    | [] => .error ()
    | w :: _ => .ok (w.map Char.toLower)

/-- A label that never triggers the `IndexError` of `deriveSourceType`:
either empty, or containing at least one word. -/
def goodLabel (label : List Char) : Bool :=
  label.isEmpty || !(pySplitWs label).isEmpty

/-- The `display_title` computation of `_process_entries`. -/
def displayTitleOf (label title : List Char) : List Char :=
  let dt := if title = [] then "Untitled".toList else title
  if label ≠ [] ∧ ¬(label <:+: dt) then
    '[' :: label ++ ']' :: ' ' :: dt
  else dt

/-- The `source_label or "unknown source"` of the new-candidate log line. -/
def srcDescOf (label : List Char) : List Char :=
  if label = [] then "unknown source".toList else label

/-- The body of the inner `for token in tokens` loop of `_process_entries`:
skip seen tokens; otherwise mark the token seen, build the candidate, and
append and log it.  The `IndexError` of the `source_type` field aborts
after the seen-set insertion and before the candidate append; the error
value carries the mutated state. -/
def processOneToken (now : Nat) (label title body url : List Char)
    (st : AppState) (token : List Char) :
    Except AppState (AppState × Option Candidate) :=
  if token ∈ st.seen_codes then .ok (st, none)
  else
    let st1 := { st with seen_codes := token :: st.seen_codes }
    let confidence := calculate_confidence (title ++ '\n' :: body) token
    let snippet := build_example_snippet title body token
    let dt := displayTitleOf label title
    match deriveSourceType label with
    | .error _ => .error st1
    | .ok stype =>
      let cand : Candidate :=
        { code := token, example_text := snippet, source_title := dt,
          url := url, discovered_at := now, confidence_score := confidence,
          source_type := stype }
      let st2 := { st1 with
        candidates := dequeAppend MAX_CANDIDATES st1.candidates cand }
      let st3 := log_event now st2
        (.newCandidate token (srcDescOf label) confidence) .success
      .ok (st3, some cand)

/-- The inner token loop of `_process_entries`, accumulating the
`new_candidates` list. -/
def processTokens (now : Nat) (label title body url : List Char) :
    List (List Char) → AppState → List Candidate →
    Except AppState (AppState × List Candidate)
  | [], st, acc => .ok (st, acc)
  | t :: ts, st, acc =>
    match processOneToken now label title body url st t with
    | .error st1 => .error st1
    | .ok (st1, none) => processTokens now label title body url ts st1 acc
    | .ok (st1, some c) =>
      processTokens now label title body url ts st1 (acc ++ [c])

/-- The outer entry loop of `_process_entries`. -/
def processEntryList (now : Nat) (label : List Char) :
    List Entry → AppState → List Candidate →
    Except AppState (AppState × List Candidate)
  | [], st, acc => .ok (st, acc)
  | e :: es, st, acc =>
    match processTokens now label e.title e.body e.url
        (extract_tokens (e.title ++ '\n' :: e.body)) st acc with
    | .error st1 => .error st1
    | .ok (st1, acc1) => processEntryList now label es st1 acc1

/-- Embedding of `_process_entries` (sora_hunt.py lines 557-598). -/
def process_entries (now : Nat) (entries : List Entry) (label : List Char)
    (st : AppState) : Except AppState (AppState × List Candidate) :=
  processEntryList now label entries st []

/-- The stringified `IndexError` surfacing in the per-source error log when
`_process_entries` raises inside the `try` block. -/
def indexErrorText : List Char := "list index out of range".toList

/-- Observable events of one cycle, used to state ordering properties:
fetch invocations, processing completions, every `_log_event` emission,
per-source rate-limit sleeps and the end-of-cycle sleep. -/
inductive Ev where
  | fetch (name : List Char)
  | procOk (name : List Char) (items newCount : Nat)
  | logged (level : LogLevel) (msg : LogMsg)
  | rateSleep (name : List Char) (d : ℚ)
  | endSleep (d : ℚ)
deriving DecidableEq

/-- One iteration of the `for source in SOURCES` loop of `_poll_sources`
(sora_hunt.py lines 611-642): skip disabled sources; fetch; on success
process entries, record health and counters, log at debug, and sleep the
source's positive rate-limit delay; any exception (fetch failure or the
processing `IndexError`) is caught, logged at error level once, and
recorded in health and the error counter. -/
def pollOne (now : Nat) (st : AppState) (src : SourceSpec) :
    AppState × SourceSpec × List Candidate × List Ev :=
  if src.enabled = false then (st, src, [], [])
  else
    match src.fetchResult with
    | .error e =>
      let st1 := log_event now st (.sourceError src.name e) .error
      let st2 := { st1 with error_count := st1.error_count + 1 }
      (st2, applySourceFailure now src, [],
        [.fetch src.name, .logged .error (.sourceError src.name e)])
    | .ok entries =>
      match process_entries now entries src.name st with
      | .error st1 =>
        let st2 := log_event now st1
          (.sourceError src.name indexErrorText) .error
        let st3 := { st2 with error_count := st2.error_count + 1 }
        (st3, applySourceFailure now src, [],
          [.fetch src.name,
           .logged .error (.sourceError src.name indexErrorText)])
      | .ok (st1, newCands) =>
        let src1 := applySourceSuccess now src
        let st2 := { st1 with success_count := st1.success_count + 1 }
        let st3 := log_event now st2
          (.sourceOk src.name entries.length newCands.length) .debug
        (st3, src1, newCands,
          .fetch src.name ::
            newCands.map (fun c =>
              Ev.logged .success
                (.newCandidate c.code (srcDescOf src.name)
                  c.confidence_score)) ++
            [.procOk src.name entries.length newCands.length,
             .logged .debug
               (.sourceOk src.name entries.length newCands.length)] ++
            (if 0 < src.rate_limit_delay then
              [.rateSleep src.name src.rate_limit_delay]
             else []))

/-- The full source loop of one cycle. -/
def pollAll (now : Nat) :
    List SourceSpec → AppState →
    AppState × List SourceSpec × List Candidate × List Ev
  | [], st => (st, [], [], [])
  | src :: rest, st =>
    let r1 := pollOne now st src
    let r2 := pollAll now rest r1.1
    (r2.1, r1.2.1 :: r2.2.1, r1.2.2.1 ++ r2.2.2.1, r1.2.2.2 ++ r2.2.2.2)

/-- One iteration of the `while True` loop of `_poll_sources`
(sora_hunt.py lines 601-656): cycle-start log, the source loop, the
summary log, `last_poll` update and the end-of-cycle sleep of
`max(poll_interval - elapsed, 5)` seconds.  The wall clock is abstracted:
`now` stands for this cycle's timestamps and `elapsed` for the measured
cycle latency. -/
def pollCycle (now : Nat) (pollInterval elapsed : ℚ) (st0 : AppState)
    (sources : List SourceSpec) :
    AppState × List SourceSpec × List Candidate × List Ev × ℚ :=
  let st1 := log_event now st0 (.cycleStart sources.length) .info
  let r := pollAll now sources st1
  let summaryMsg : LogMsg :=
    if r.2.2.1.length ≠ 0 then .discovered r.2.2.1.length else .noneThisCycle
  let summaryLvl : LogLevel :=
    if r.2.2.1.length ≠ 0 then .success else .info
  let st3 := log_event now r.1 summaryMsg summaryLvl
  let st4 := { st3 with last_poll := some now }
  let sleep_for := max (pollInterval - elapsed) 5
  (st4, r.2.1, r.2.2.1,
    Ev.logged .info (.cycleStart sources.length) ::
      r.2.2.2 ++ [Ev.logged summaryLvl summaryMsg, Ev.endSleep sleep_for],
    sleep_for)

/-- A sequence of producer `_process_entries` calls, as issued by
successive cycles: each call is an entry list plus the source label; a
raised `IndexError` is caught by the orchestrator, which carries on with
the mutated state (that call contributes no candidates). -/
def runCalls (now : Nat) :
    List (List Entry × List Char) → AppState → AppState × List Candidate
  | [], st => (st, [])
  | (es, lbl) :: rest, st =>
    match process_entries now es lbl st with
    | .error st1 => runCalls now rest st1
    | .ok (st1, cands) =>
      let r := runCalls now rest st1
      (r.1, cands ++ r.2)

/-! Spec-side definitions.  The following definitions are written from the
wording of the specification (not from the source) and are compared with
the source-side definitions above in refinement theorems. -/

/-- Modelled from the spec: the confidence formula as a single expression —
base 0.5, plus 0.1 per distinct matched keyword capped at +0.3 total, plus
0.15 for the brand term, minus 0.3 for a noise term, clamped to
[0.1, 1.0]. -/
def specConfidence (text : List Char) : ℚ :=
  let tl := text.map Char.toLower
  let kwCount : Nat :=
    (INVITE_KEYWORDS.filter (fun kw => decide (kw <:+: tl))).length
  let kwBonus : ℚ := min ((kwCount : ℚ) * (1/10)) (3/10)
  let brand : ℚ := if "sora".toList <:+: tl then 15/100 else 0
  let noise : ℚ :=
    if NOISE_TERMS.any (fun w => decide (w <:+: tl)) then 3/10 else 0
  min (max (1/2 + kwBonus + brand - noise) (1/10)) 1

/-- Modelled from the spec: stable first-occurrence deduplication, folding
left and appending each element the first time it is met. -/
def stableDedup (l : List (List Char)) : List (List Char) :=
  l.foldl (fun acc a => if a ∈ acc then acc else acc ++ [a]) []

/-- Modelled from the spec: the declarative left-to-right highlighting
relation.  `ScanDecomp tok s out` holds when `out` decomposes the snippet
`s` into escaped non-matching characters and wrapped matches such that a
position is skipped only when no case-insensitive occurrence of the token
starts there (so every occurrence met by the scan is wrapped, and the scan
resumes after each match, making matches non-overlapping). -/
inductive ScanDecomp (tok : List Char) : List Char → List Char → Prop where
  | nil : ScanDecomp tok [] []
  | found : ∀ s out, tok ≠ [] → ciPrefixOf tok s = true →
      ScanDecomp tok (s.drop tok.length) out →
      ScanDecomp tok s
        (markOpen ++ htmlEscape (s.take tok.length) ++ markClose ++ out)
  | skip : ∀ c rest out, ciPrefixOf tok (c :: rest) = false →
      ScanDecomp tok rest out →
      ScanDecomp tok (c :: rest) (escChar c ++ out)

/-- Checker for the HTML-safety property: scans a string and accepts it
when every `<` or `>` belongs to a `<mark>`/`</mark>` tag and every `&`
begins one of the escape entities produced by `html.escape`. -/
def okOutput : List Char → Bool
  | [] => true
  | c :: rest =>
    if markOpen.isPrefixOf (c :: rest) then
      okOutput ((c :: rest).drop 6)
    else if markClose.isPrefixOf (c :: rest) then
      okOutput ((c :: rest).drop 7)
    else if c = '<' ∨ c = '>' then false
    else if c = '&' then
      if "&amp;".toList.isPrefixOf (c :: rest) then
        okOutput ((c :: rest).drop 5)
      else if "&lt;".toList.isPrefixOf (c :: rest) then
        okOutput ((c :: rest).drop 4)
      else if "&gt;".toList.isPrefixOf (c :: rest) then
        okOutput ((c :: rest).drop 4)
      else if "&quot;".toList.isPrefixOf (c :: rest) then
        okOutput ((c :: rest).drop 6)
      else if "&#x27;".toList.isPrefixOf (c :: rest) then
        okOutput ((c :: rest).drop 6)
      else false
    else okOutput rest
termination_by s => s.length
decreasing_by
  all_goals simp_wf
  all_goals omega

/-- Number of positions of `s` at which `needle` matches
case-insensitively (all occurrences, including overlapping ones). -/
def countCIOcc (needle s : List Char) : Nat :=
  ((List.range (s.length + 1)).filter
    (fun p => ciPrefixOf needle (s.drop p))).length

/-- Number of positions of `s` at which the exact pattern `pat` occurs. -/
def countExactOcc (pat s : List Char) : Nat :=
  ((List.range (s.length + 1)).filter
    (fun p => pat.isPrefixOf (s.drop p))).length

/-- The name carried by a fetch event, used to state invocation order. -/
def evFetchName : Ev → Option (List Char)
  | .fetch n => some n
  | _ => none

/-- Did this cycle's fetch of the source fail? -/
def fetchFailed (s : SourceSpec) : Bool :=
  match s.fetchResult with
  | .error _ => true
  | .ok _ => false

/-- Is the event the error-level log entry of the given source failure? -/
def isErrorLogFor (name exc : List Char) : Ev → Bool
  | .logged .error (.sourceError n e) => n == name && e == exc
  | _ => false

/-- Is the event a processing-completed event of the given source? -/
def isProcOkFor (name : List Char) : Ev → Bool
  | .procOk n _ _ => n == name
  | _ => false

/-- Is the event a rate-limit sleep? -/
def isRateSleepEv : Ev → Bool
  | .rateSleep _ _ => true
  | _ => false

/-- Per-source health transition of one cycle: disabled sources are left
untouched, failing sources get the failure update, succeeding sources the
success update. -/
def healthStep (now : Nat) (s s2 : SourceSpec) : Prop :=
  (s.enabled = false → s2 = s) ∧
  (s.enabled = true → fetchFailed s = true → s2 = applySourceFailure now s) ∧
  (s.enabled = true → fetchFailed s = false → s2 = applySourceSuccess now s)

/-! Concrete values used by the witness theorems. -/

/-- A concrete candidate record. -/
def wCand0 : Candidate :=
  { code := "A1111".toList, example_text := [], source_title := [],
    url := [], discovered_at := 0, confidence_score := 1/2,
    source_type := [] }

/-- A second concrete candidate record, differing from `wCand0`. -/
def wCand1 : Candidate :=
  { code := "B2222".toList, example_text := [], source_title := [],
    url := [], discovered_at := 0, confidence_score := 1/2,
    source_type := [] }

/-- A concrete log entry. -/
def wLog0 : LogEntry :=
  { timestamp := 0, level := .info, message := .noneThisCycle }

/-- A second concrete log entry, differing from `wLog0`. -/
def wLog1 : LogEntry :=
  { timestamp := 1, level := .debug, message := .noneThisCycle }

/-- A concrete succeeding source. -/
def wSrcOk : SourceSpec :=
  { name := "Reddit".toList, enabled := true, rate_limit_delay := 2,
    last_success := none, last_error := none,
    fetchResult := .ok [{ title := "CODE9X here".toList, body := [], url := [] }] }

/-- A concrete failing source. -/
def wSrcBad : SourceSpec :=
  { name := "HN".toList, enabled := true, rate_limit_delay := 1,
    last_success := none, last_error := none,
    fetchResult := .error "boom".toList }

/-- A concrete source whose recorded error marker predates a success. -/
def wSrcHist : SourceSpec :=
  { name := "X".toList, enabled := true, rate_limit_delay := 0,
    last_success := none, last_error := some 1, fetchResult := .ok [] }

/-! Theorems.  General lemmas come first, then one main theorem per claim
of the specification review, each with its witness or counterexample. -/

/-- A `[A-Z0-9]` character is a regex word character. -/
theorem tokChar_wordChar {c : Char} (h : tokChar c = true) : wordChar c = true := by
  unfold tokChar at h
  unfold wordChar Char.isAlphanum Char.isAlpha
  rcases Bool.or_eq_true_iff.mp h with h1 | h2
  · simp [h1]
  · simp [h2]

theorem dequeAppend_length_le {α : Type} {cap : Nat} (hc : 0 < cap)
    (buf : List α) (x : α) (hb : buf.length ≤ cap) :
    (dequeAppend cap buf x).length ≤ cap := by
  unfold dequeAppend
  split
  · simp only [List.length_append, List.length_singleton]
    omega
  · simp only [List.length_append, List.length_singleton, List.length_drop]
    omega

theorem appendAll_eq_drop {α : Type} {cap : Nat} (hc : 0 < cap)
    (xs : List α) : appendAll cap xs = xs.drop (xs.length - cap) := by
  induction xs using List.reverseRecOn with
  | nil => simp [appendAll]
  | append_singleton ys y ih =>
    unfold appendAll at ih ⊢
    rw [List.foldl_append, List.foldl_cons, List.foldl_nil, ih]
    rcases Nat.lt_or_ge ys.length cap with h | h
    · have h0 : ys.length - cap = 0 := by omega
      have h1 : ys.length + 1 - cap = 0 := by omega
      simp [dequeAppend, h0, h1, List.length_append, h]
    · have hlen : (ys.drop (ys.length - cap)).length = cap := by
        simp only [List.length_drop]
        omega
      rw [dequeAppend, if_neg (by rw [hlen]; omega)]
      rw [List.drop_drop]
      rw [List.length_append, List.length_singleton]
      rw [List.drop_append_of_le_length (by omega)]
      congr 2
      omega

theorem appendAll_length_le {α : Type} {cap : Nat} (hc : 0 < cap)
    (xs : List α) : (appendAll cap xs).length ≤ cap := by
  rw [appendAll_eq_drop hc, List.length_drop]
  omega

/-- C5: the candidate ring buffer (capacity 1000) and the activity-log
ring buffer (capacity 500) never exceed their capacity; appending
`capacity + 1` elements to an empty buffer evicts exactly the
first-inserted element (FIFO), leaving the most recent `capacity` elements
in insertion order, with no access-based reordering. -/
theorem ring_buffer_bounded_fifo (xs : List Candidate) (ys : List LogEntry) :
    (appendAll MAX_CANDIDATES xs).length ≤ MAX_CANDIDATES ∧
    (appendAll MAX_LOG_ENTRIES ys).length ≤ MAX_LOG_ENTRIES ∧
    (xs.length = MAX_CANDIDATES + 1 →
      appendAll MAX_CANDIDATES xs = xs.tail ∧
      ∀ c, xs.head? = some c → c ∉ xs.tail →
        c ∉ appendAll MAX_CANDIDATES xs) ∧
    (ys.length = MAX_LOG_ENTRIES + 1 →
      appendAll MAX_LOG_ENTRIES ys = ys.tail ∧
      ∀ e, ys.head? = some e → e ∉ ys.tail →
        e ∉ appendAll MAX_LOG_ENTRIES ys) := by
  have hc : 0 < MAX_CANDIDATES := by decide
  have hl : 0 < MAX_LOG_ENTRIES := by decide
  refine ⟨appendAll_length_le hc xs, appendAll_length_le hl ys, ?_, ?_⟩
  · intro h
    have he : appendAll MAX_CANDIDATES xs = xs.tail := by
      rw [appendAll_eq_drop hc, h,
        show MAX_CANDIDATES + 1 - MAX_CANDIDATES = 1 from by omega,
        List.drop_one]
    exact ⟨he, fun c _ hc2 => by rw [he]; exact hc2⟩
  · intro h
    have he : appendAll MAX_LOG_ENTRIES ys = ys.tail := by
      rw [appendAll_eq_drop hl, h,
        show MAX_LOG_ENTRIES + 1 - MAX_LOG_ENTRIES = 1 from by omega,
        List.drop_one]
    exact ⟨he, fun e _ he2 => by rw [he]; exact he2⟩

/-- Witness for C5 at concrete buffers of 1001 candidates and 501 log
entries: the head is evicted and exactly the most recent 1000 and 500
elements remain. -/
theorem ring_buffer_bounded_fifo_witness :
    appendAll MAX_CANDIDATES (wCand0 :: List.replicate 1000 wCand1) =
      List.replicate 1000 wCand1 ∧
    wCand0 ∉ appendAll MAX_CANDIDATES (wCand0 :: List.replicate 1000 wCand1) ∧
    appendAll MAX_LOG_ENTRIES (wLog0 :: List.replicate 500 wLog1) =
      List.replicate 500 wLog1 ∧
    wLog0 ∉ appendAll MAX_LOG_ENTRIES (wLog0 :: List.replicate 500 wLog1) := by
  have hxlen : (wCand0 :: List.replicate 1000 wCand1).length =
      MAX_CANDIDATES + 1 := by simp [MAX_CANDIDATES]
  have hylen : (wLog0 :: List.replicate 500 wLog1).length =
      MAX_LOG_ENTRIES + 1 := by simp [MAX_LOG_ENTRIES]
  have hxm : wCand0 ∉ (wCand0 :: List.replicate 1000 wCand1).tail := by
    simp only [List.tail_cons, List.mem_replicate]
    intro hcon
    exact absurd hcon.2 (by decide)
  have hym : wLog0 ∉ (wLog0 :: List.replicate 500 wLog1).tail := by
    simp only [List.tail_cons, List.mem_replicate]
    intro hcon
    exact absurd hcon.2 (by decide)
  have h1 := (ring_buffer_bounded_fifo (wCand0 :: List.replicate 1000 wCand1)
    (wLog0 :: List.replicate 500 wLog1)).2.2.1 hxlen
  have h2 := (ring_buffer_bounded_fifo (wCand0 :: List.replicate 1000 wCand1)
    (wLog0 :: List.replicate 500 wLog1)).2.2.2 hylen
  exact ⟨h1.1, h1.2 wCand0 rfl hxm, h2.1, h2.2 wLog0 rfl hym⟩

/-- C4: for every text and token the confidence score equals the spec
formula — base 0.5, plus 0.1 per distinct matched keyword capped at +0.3,
plus 0.15 for the brand term, minus 0.3 for a noise term, clamped to
[0.1, 1.0] — and always lies in [0.1, 1.0].  Determinism is inherent: the
embedding is a pure function of its arguments. -/
theorem calculate_confidence_spec (text token : List Char) :
    calculate_confidence text token = specConfidence text ∧
    1/10 ≤ calculate_confidence text token ∧
    calculate_confidence text token ≤ 1 := by
  refine ⟨?_, ?_, ?_⟩
  · unfold calculate_confidence specConfidence
    dsimp only
    split_ifs <;> ring_nf
  · unfold calculate_confidence
    dsimp only
    exact le_min (le_max_right _ _) (by norm_num)
  · unfold calculate_confidence
    dsimp only
    exact min_le_right _ _

/-- C7 counterexample: the success path clears the error marker.  With a
source whose `last_error` records time 1, the success update at time 2
resets `last_error` to `None`, so the previously recorded value is no
longer observable, contradicting the claim that it is retained. -/
theorem source_health_claim_ce :
    wSrcHist.last_error = some 1 ∧
    (applySourceSuccess 2 wSrcHist).last_error = none ∧
    (applySourceSuccess 2 wSrcHist).last_error ≠ some 1 := by
  refine ⟨rfl, rfl, by decide⟩

/-- C7 amended: recording a success sets `last_success` to the current
time and resets `last_error` to `None` (the prior error marker is not
retained); recording a failure sets `last_error` and leaves `last_success`
unchanged; neither update touches name, enabled flag or delay. -/
theorem source_health_update_spec (now : Nat) (s : SourceSpec) :
    (applySourceSuccess now s).last_success = some now ∧
    (applySourceSuccess now s).last_error = none ∧
    (applySourceSuccess now s).name = s.name ∧
    (applySourceSuccess now s).enabled = s.enabled ∧
    (applySourceSuccess now s).rate_limit_delay = s.rate_limit_delay ∧
    (applySourceFailure now s).last_error = some now ∧
    (applySourceFailure now s).last_success = s.last_success ∧
    (applySourceFailure now s).name = s.name ∧
    (applySourceFailure now s).enabled = s.enabled ∧
    (applySourceFailure now s).rate_limit_delay = s.rate_limit_delay :=
  ⟨rfl, rfl, rfl, rfl, rfl, rfl, rfl, rfl, rfl, rfl⟩

/-- C8: every cycle ends by sleeping exactly
`max (pollInterval - elapsed) 5` seconds: at least 5 seconds are always
slept, and when the cycle was fast enough the sleep tracks the configured
interval exactly; the sleep is the final event of the cycle trace. -/
theorem cycle_sleep_spec (now : Nat) (interval elapsed : ℚ) (st : AppState)
    (sources : List SourceSpec) :
    (pollCycle now interval elapsed st sources).2.2.2.2 =
      max (interval - elapsed) 5 ∧
    5 ≤ (pollCycle now interval elapsed st sources).2.2.2.2 ∧
    (elapsed + 5 ≤ interval →
      (pollCycle now interval elapsed st sources).2.2.2.2 =
        interval - elapsed) ∧
    (pollCycle now interval elapsed st sources).2.2.2.1.getLast? =
      some (.endSleep (max (interval - elapsed) 5)) := by
  refine ⟨rfl, ?_, ?_, ?_⟩
  · exact le_max_right _ _
  · intro h
    show max (interval - elapsed) 5 = interval - elapsed
    exact max_eq_left (by linarith)
  · show (Ev.logged .info (.cycleStart sources.length) ::
      ((pollAll now sources (log_event now st (.cycleStart sources.length)
        .info)).2.2.2 ++ [_, _])).getLast? = _
    rw [← List.cons_append, List.getLast?_append]
    rfl

/-- Witness for C8 at a concrete configuration: interval 60, elapsed 3,
sleep 57. -/
theorem cycle_sleep_spec_witness :
    (pollCycle 7 60 3 initialState [wSrcOk, wSrcBad]).2.2.2.2 = 57 := by
  have h := (cycle_sleep_spec 7 60 3 initialState [wSrcOk, wSrcBad]).2.2.1
    (by norm_num)
  rw [h]
  norm_num

theorem dropWhile_eq_drop_len (p : Char → Bool) (l : List Char) :
    l.dropWhile p = l.drop (l.takeWhile p).length := by
  induction l with
  | nil => rfl
  | cons a l ih =>
    by_cases h : p a
    · simp [List.dropWhile_cons_of_pos h, List.takeWhile_cons_of_pos h, ih]
    · simp [List.dropWhile_cons_of_neg h, List.takeWhile_cons_of_neg h]

theorem wordChar_false_tokChar {c : Char} (h : wordChar c = false) :
    tokChar c = false := by
  cases htok : tokChar c
  · rfl
  · rw [tokChar_wordChar htok] at h
    cases h

theorem findBounded_sound :
    ∀ (pw : Bool) (l : List Char) (tok : List Char),
      tok ∈ findBounded pw l →
      ∃ pre post, l = pre ++ tok ++ post ∧
        tok ≠ [] ∧ (∀ c ∈ tok, tokChar c = true) ∧
        5 ≤ tok.length ∧ tok.length ≤ 12 ∧
        ((pre = [] ∧ pw = false) ∨
          ∃ c pre2, pre = pre2 ++ [c] ∧ wordChar c = false) ∧
        (post = [] ∨ ∃ d rest, post = d :: rest ∧ wordChar d = false) := by
  intro pw l
  induction pw, l using findBounded.induct with
  | case1 pw =>
    intro tok h
    simp [findBounded] at h
  | case2 prevWord c rest hstart run rest2 hrun ih =>
    intro tok h
    unfold run rest2 at hrun ih
    rw [findBounded, if_pos hstart, if_pos hrun] at h
    have hsplit : c :: rest =
        (c :: rest.takeWhile tokChar) ++ rest.dropWhile tokChar := by
      simp [List.takeWhile_append_dropWhile]
    rcases List.mem_cons.mp h with rfl | hmem
    · refine ⟨[], rest.dropWhile tokChar, ?_, by simp, ?_, ?_, ?_, ?_, ?_⟩
      · simp
      · intro x hx
        rcases List.mem_cons.mp hx with rfl | hx2
        · exact (Bool.and_eq_true_iff.mp hstart).1
        · exact List.mem_takeWhile_imp hx2
      · have := (Bool.and_eq_true_iff.mp (Bool.and_eq_true_iff.mp hrun).1).1
        exact of_decide_eq_true this
      · have := (Bool.and_eq_true_iff.mp (Bool.and_eq_true_iff.mp hrun).1).2
        exact of_decide_eq_true this
      · left
        refine ⟨rfl, ?_⟩
        have := (Bool.and_eq_true_iff.mp hstart).2
        simpa using this
      · have hmatch := (Bool.and_eq_true_iff.mp hrun).2
        cases hh : (rest.dropWhile tokChar) with
        | nil => exact Or.inl rfl
        | cons d ds =>
          right
          refine ⟨d, ds, rfl, ?_⟩
          rw [hh] at hmatch
          simpa using hmatch
    · rcases ih tok hmem with
        ⟨pre2, post2, hsplit2, hne, hall, h5, h12, hpredisj, hpost⟩
      refine ⟨(c :: rest.takeWhile tokChar) ++ pre2, post2, ?_, hne, hall,
        h5, h12, ?_, hpost⟩
      · rw [hsplit, hsplit2]
        simp
      · rcases hpredisj with ⟨_, hfalse⟩ | ⟨c2, pre3, rfl, hw⟩
        · cases hfalse
        · exact Or.inr ⟨c2, (c :: rest.takeWhile tokChar) ++ pre3, by simp, hw⟩
  | case3 prevWord c rest hstart run rest2 hrun ih =>
    intro tok h
    unfold run rest2 at hrun ih
    rw [findBounded, if_pos hstart, if_neg hrun] at h
    have hsplit : c :: rest =
        (c :: rest.takeWhile tokChar) ++ rest.dropWhile tokChar := by
      simp [List.takeWhile_append_dropWhile]
    rcases ih tok h with
      ⟨pre2, post2, hsplit2, hne, hall, h5, h12, hpredisj, hpost⟩
    refine ⟨(c :: rest.takeWhile tokChar) ++ pre2, post2, ?_, hne, hall,
      h5, h12, ?_, hpost⟩
    · rw [hsplit, hsplit2]
      simp
    · rcases hpredisj with ⟨_, hfalse⟩ | ⟨c2, pre3, rfl, hw⟩
      · cases hfalse
      · exact Or.inr ⟨c2, (c :: rest.takeWhile tokChar) ++ pre3, by simp, hw⟩
  | case4 prevWord c rest hstart ih =>
    intro tok h
    rw [findBounded, if_neg hstart] at h
    rcases ih tok h with
      ⟨pre2, post2, hsplit2, hne, hall, h5, h12, hpredisj, hpost⟩
    refine ⟨c :: pre2, post2, by rw [hsplit2]; rfl, hne, hall, h5, h12,
      ?_, hpost⟩
    rcases hpredisj with ⟨rfl, hw⟩ | ⟨c2, pre3, rfl, hw⟩
    · exact Or.inr ⟨c, [], rfl, hw⟩
    · exact Or.inr ⟨c2, c :: pre3, rfl, hw⟩

theorem mem_dedupKeepFirst {a : List Char} :
    ∀ l, a ∈ dedupKeepFirst l ↔ a ∈ l := by
  intro l
  induction l with
  | nil => simp [dedupKeepFirst]
  | cons x xs ih =>
    rw [dedupKeepFirst]
    constructor
    · intro h
      rcases List.mem_cons.mp h with rfl | h2
      · exact List.mem_cons_self _ _
      · exact List.mem_cons_of_mem _ (ih.mp (List.mem_filter.mp h2).1)
    · intro h
      rcases List.mem_cons.mp h with rfl | h2
      · exact List.mem_cons_self _ _
      · by_cases hax : a = x
        · rw [hax]; exact List.mem_cons_self _ _
        · refine List.mem_cons_of_mem _ ?_
          exact List.mem_filter.mpr ⟨ih.mpr h2, by simpa using hax⟩

theorem nodup_dedupKeepFirst : ∀ l, (dedupKeepFirst l).Nodup := by
  intro l
  induction l with
  | nil => simp [dedupKeepFirst]
  | cons x xs ih =>
    rw [dedupKeepFirst]
    refine List.nodup_cons.mpr ⟨?_, ih.filter _⟩
    intro hmem
    have := (List.mem_filter.mp hmem).2
    simp at this

theorem dedup_filter_comm (p : List Char → Bool) :
    ∀ l, dedupKeepFirst (l.filter p) = (dedupKeepFirst l).filter p := by
  intro l
  induction l with
  | nil => simp [dedupKeepFirst]
  | cons x xs ih =>
    by_cases hp : p x
    · rw [List.filter_cons_of_pos hp, dedupKeepFirst, dedupKeepFirst, ih,
        List.filter_cons_of_pos hp, List.filter_filter, List.filter_filter]
      congr 1
      apply List.filter_congr
      intro a _
      exact Bool.and_comm _ _
    · rw [List.filter_cons_of_neg hp, dedupKeepFirst, ih,
        List.filter_cons_of_neg hp, List.filter_filter]
      apply List.filter_congr
      intro a _
      by_cases hax : a = x
      · rw [hax]
        simp [hp]
      · simp [hax]

theorem dedup_cons_filter (x : List Char) (l : List (List Char)) :
    dedupKeepFirst (x :: l) =
      x :: dedupKeepFirst (l.filter (fun y => y ≠ x)) := by
  rw [dedupKeepFirst, dedup_filter_comm]

theorem stableDedup_aux :
    ∀ (l acc : List (List Char)),
      l.foldl (fun acc a => if a ∈ acc then acc else acc ++ [a]) acc =
        acc ++ dedupKeepFirst (l.filter (fun y => y ∉ acc)) := by
  intro l
  induction l with
  | nil => intro acc; simp [dedupKeepFirst]
  | cons x xs ih =>
    intro acc
    rw [List.foldl_cons]
    by_cases hx : x ∈ acc
    · rw [if_pos hx, ih, List.filter_cons_of_neg (by simpa using hx)]
    · rw [if_neg hx, ih, List.filter_cons_of_pos (by simpa using hx),
        dedup_cons_filter, List.filter_filter]
      have hcongr :
          (xs.filter (fun a => decide (a ≠ x) && decide (a ∉ acc))) =
            xs.filter (fun y => y ∉ acc ++ [x]) := by
        apply List.filter_congr
        intro y _
        by_cases h1 : y = x <;> by_cases h2 : y ∈ acc <;>
          simp [h1, h2]
      rw [hcongr]
      simp

theorem stableDedup_eq (l : List (List Char)) :
    stableDedup l = dedupKeepFirst l := by
  unfold stableDedup
  rw [stableDedup_aux]
  have : l.filter (fun y => y ∉ ([] : List (List Char))) = l := by
    apply List.filter_eq_self.mpr
    intro a _
    simp
  rw [this]
  simp

/-- C2: every extracted token is a word-bounded maximal `[A-Z0-9]` run of
length 5-12 of the uppercased text (its neighbours, when present, are
neither word characters nor token characters, so the run is maximal),
contains a digit, contains no denylisted substring, and the output is the
duplicate-free stable first-occurrence deduplication of the match list. -/
theorem extract_tokens_spec (text : List Char) :
    (∀ tok ∈ extract_tokens text,
      (∃ pre post, text.map Char.toUpper = pre ++ tok ++ post ∧
        tok ≠ [] ∧ (∀ c ∈ tok, tokChar c = true) ∧
        5 ≤ tok.length ∧ tok.length ≤ 12 ∧
        (∀ c, pre.getLast? = some c → wordChar c = false ∧ tokChar c = false) ∧
        (∀ d, post.head? = some d → wordChar d = false ∧ tokChar d = false)) ∧
      tok.any Char.isDigit = true ∧
      (∀ ex ∈ DENYLIST, ¬ ex <:+: tok)) ∧
    (extract_tokens text).Nodup ∧
    extract_tokens text = stableDedup (tokenCandidates text) ∧
    (∀ tok, tok ∈ extract_tokens text ↔ tok ∈ tokenCandidates text) := by
  refine ⟨?_, nodup_dedupKeepFirst _, (stableDedup_eq _).symm,
    fun tok => mem_dedupKeepFirst _⟩
  intro tok hmem
  have hcand : tok ∈ tokenCandidates text := (mem_dedupKeepFirst _).mp hmem
  have hfb := List.mem_filter.mp hcand
  have hprops := hfb.2
  have hdigit : tok.any Char.isDigit = true :=
    (Bool.and_eq_true_iff.mp hprops).1
  have hdeny : (DENYLIST.any (fun ex => decide (ex <:+: tok))) = false := by
    have := (Bool.and_eq_true_iff.mp hprops).2
    simpa using this
  refine ⟨?_, hdigit, ?_⟩
  · rcases findBounded_sound false (text.map Char.toUpper) tok hfb.1 with
      ⟨pre, post, hsplit, hne, hall, h5, h12, hpredisj, hpostdisj⟩
    refine ⟨pre, post, hsplit, hne, hall, h5, h12, ?_, ?_⟩
    · intro c hc
      rcases hpredisj with ⟨rfl, _⟩ | ⟨c2, pre2, rfl, hw⟩
      · cases hc
      · rw [List.getLast?_concat] at hc
        cases hc
        exact ⟨hw, wordChar_false_tokChar hw⟩
    · intro d hd
      rcases hpostdisj with rfl | ⟨d2, rest2, rfl, hw⟩
      · cases hd
      · cases hd
        exact ⟨hw, wordChar_false_tokChar hw⟩
  · intro ex hex hinf
    have := List.any_eq_false.mp hdeny ex hex
    simp at this
    exact this hinf

/-- Witness for C2 at the spec's own example text: `AB12CD3` is extracted
once (the second, lowercase occurrence deduplicated) and `HTML5X` is
excluded by the denylist. -/
theorem extract_tokens_spec_witness :
    extract_tokens "Use code AB12CD3 or ab12cd3 again, also HTML5X".toList =
      ["AB12CD3".toList] ∧
    ("AB12CD3".toList.any Char.isDigit = true ∧
      (∀ ex ∈ DENYLIST, ¬ ex <:+: "AB12CD3".toList)) := by
  have hfb : findBounded false
      ("Use code AB12CD3 or ab12cd3 again, also HTML5X".toList.map
        Char.toUpper) =
      ["AB12CD3".toList, "AB12CD3".toList, "AGAIN".toList,
        "HTML5X".toList] := by
    simp [findBounded, tokChar, wordChar]
  have hev : extract_tokens
      "Use code AB12CD3 or ab12cd3 again, also HTML5X".toList =
      ["AB12CD3".toList] := by
    rw [extract_tokens, tokenCandidates, hfb]
    decide
  refine ⟨hev, ?_⟩
  have h2 := (extract_tokens_spec
    "Use code AB12CD3 or ab12cd3 again, also HTML5X".toList).1
    "AB12CD3".toList (by rw [hev]; exact List.mem_singleton_self _)
  exact ⟨h2.2.1, h2.2.2⟩

theorem pySplitAux_nil_of_space :
    ∀ l, (∀ c ∈ l, isPySpace c = true) → pySplitAux [] l = [] := by
  intro l
  induction l with
  | nil => intro _; rfl
  | cons c rest ih =>
    intro h
    rw [pySplitAux, if_pos (h c (List.mem_cons_self _ _)), if_pos rfl]
    exact ih fun d hd => h d (List.mem_cons_of_mem _ hd)

theorem deriveSourceType_error_of_space {label : List Char}
    (h1 : label ≠ []) (h2 : ∀ c ∈ label, isPySpace c = true) :
    deriveSourceType label = .error () := by
  unfold deriveSourceType
  rw [if_neg h1, pySplitWs, pySplitAux_nil_of_space label h2]

theorem deriveSourceType_ok_of_good {label : List Char}
    (h : goodLabel label = true) :
    ∃ s, deriveSourceType label = .ok s := by
  unfold goodLabel at h
  unfold deriveSourceType
  rcases Bool.or_eq_true_iff.mp h with h1 | h2
  · rw [if_pos (List.isEmpty_iff.mp h1)]
    exact ⟨_, rfl⟩
  · by_cases hl : label = []
    · rw [if_pos hl]
      exact ⟨_, rfl⟩
    · rw [if_neg hl]
      cases hs : pySplitWs label with
      | nil => rw [hs] at h2; cases h2
      | cons w ws => exact ⟨_, rfl⟩

theorem mem_dequeAppend {α : Type} {cap : Nat} {buf : List α} {x c : α}
    (h : c ∈ dequeAppend cap buf x) : c ∈ buf ∨ c = x := by
  unfold dequeAppend at h
  split at h <;> rcases List.mem_append.mp h with h2 | h2
  · exact Or.inl h2
  · exact Or.inr (List.mem_singleton.mp h2)
  · exact Or.inl (List.mem_of_mem_drop h2)
  · exact Or.inr (List.mem_singleton.mp h2)

theorem processOneToken_seen {now : Nat} {label title body url token : List Char}
    {st : AppState} (h : token ∈ st.seen_codes) :
    processOneToken now label title body url st token = .ok (st, none) := by
  unfold processOneToken
  rw [if_pos h]

theorem processOneToken_fresh_err {now : Nat}
    {label title body url token : List Char} {st : AppState}
    (h : token ∉ st.seen_codes) (hgd : deriveSourceType label = .error ()) :
    processOneToken now label title body url st token =
      .error { st with seen_codes := token :: st.seen_codes } := by
  unfold processOneToken
  rw [if_neg h, hgd]

theorem processOneToken_fresh_ok {now : Nat}
    {label title body url token : List Char} {st : AppState} {stype : List Char}
    (h : token ∉ st.seen_codes) (hgd : deriveSourceType label = .ok stype) :
    ∃ st2 cand,
      processOneToken now label title body url st token = .ok (st2, some cand) ∧
      cand.code = token ∧
      st2.seen_codes = token :: st.seen_codes ∧
      st2.candidates = dequeAppend MAX_CANDIDATES st.candidates cand ∧
      st2.error_count = st.error_count ∧
      st2.success_count = st.success_count ∧
      st2.last_poll = st.last_poll := by
  unfold processOneToken
  rw [if_neg h, hgd]
  exact ⟨_, _, rfl, rfl, rfl, rfl, rfl, rfl, rfl⟩

theorem processTokens_ok (now : Nat) (label title body url : List Char)
    (stype : List Char) (hgd : deriveSourceType label = .ok stype) :
    ∀ (ts : List (List Char)) (st : AppState) (acc : List Candidate),
      ∃ st2 newCs,
        processTokens now label title body url ts st acc =
          .ok (st2, acc ++ newCs) ∧
        ((newCs.map (fun c => c.code)).Nodup) ∧
        (∀ c ∈ newCs, c.code ∉ st.seen_codes) ∧
        (∀ tok, tok ∈ st2.seen_codes ↔
          tok ∈ st.seen_codes ∨ ∃ c ∈ newCs, c.code = tok) ∧
        st2.candidates = newCs.foldl (dequeAppend MAX_CANDIDATES) st.candidates ∧
        st2.error_count = st.error_count ∧
        st2.success_count = st.success_count ∧
        st2.last_poll = st.last_poll := by
  intro ts
  induction ts with
  | nil =>
    intro st acc
    exact ⟨st, [], by simp [processTokens], by simp, by simp,
      fun tok => by simp, by simp, rfl, rfl, rfl⟩
  | cons t ts ih =>
    intro st acc
    by_cases hmem : t ∈ st.seen_codes
    · rcases ih st acc with ⟨st2, newCs, heq, hnd, hfresh, hiff, hcand, he, hs, hp⟩
      refine ⟨st2, newCs, ?_, hnd, hfresh, hiff, hcand, he, hs, hp⟩
      rw [processTokens, processOneToken_seen hmem]
      exact heq
    · rcases processOneToken_fresh_ok hmem hgd with
        ⟨st1, cand, hstep, hcode, hseen1, hcand1, he1, hs1, hp1⟩
      rcases ih st1 (acc ++ [cand]) with
        ⟨st2, newCs, heq, hnd, hfresh, hiff, hcand2, he2, hs2, hp2⟩
      refine ⟨st2, cand :: newCs, ?_, ?_, ?_, ?_, ?_, ?_, ?_, ?_⟩
      · rw [processTokens, hstep]
        show processTokens now label title body url ts st1 (acc ++ [cand]) = _
        rw [heq]
        simp
      · refine List.nodup_cons.mpr ⟨?_, hnd⟩
        intro hc
        rcases List.mem_map.mp hc with ⟨c2, hc2mem, hc2eq⟩
        have hc2eq2 : c2.code = cand.code := hc2eq
        have hfr := hfresh c2 hc2mem
        rw [hseen1, hc2eq2, hcode] at hfr
        exact hfr (List.mem_cons_self _ _)
      · intro c hc
        rcases List.mem_cons.mp hc with rfl | hc2
        · rw [hcode]; exact hmem
        · have := hfresh c hc2
          rw [hseen1] at this
          exact fun hcon => this (List.mem_cons_of_mem _ hcon)
      · intro tok
        rw [hiff tok, hseen1]
        constructor
        · rintro (htk | ⟨c2, hc2, rfl⟩)
          · rcases List.mem_cons.mp htk with rfl | h2
            · exact Or.inr ⟨cand, List.mem_cons_self _ _, hcode⟩
            · exact Or.inl h2
          · exact Or.inr ⟨c2, List.mem_cons_of_mem _ hc2, rfl⟩
        · rintro (htk | ⟨c2, hc2, rfl⟩)
          · exact Or.inl (List.mem_cons_of_mem _ htk)
          · rcases List.mem_cons.mp hc2 with rfl | h2
            · rw [hcode]
              exact Or.inl (List.mem_cons_self _ _)
            · exact Or.inr ⟨c2, h2, rfl⟩
      · rw [hcand2, hcand1, List.foldl_cons]
      · rw [he2, he1]
      · rw [hs2, hs1]
      · rw [hp2, hp1]

theorem processEntryList_ok (now : Nat) (label : List Char)
    (stype : List Char) (hgd : deriveSourceType label = .ok stype) :
    ∀ (entries : List Entry) (st : AppState) (acc : List Candidate),
      ∃ st2 newCs,
        processEntryList now label entries st acc = .ok (st2, acc ++ newCs) ∧
        ((newCs.map (fun c => c.code)).Nodup) ∧
        (∀ c ∈ newCs, c.code ∉ st.seen_codes) ∧
        (∀ tok, tok ∈ st2.seen_codes ↔
          tok ∈ st.seen_codes ∨ ∃ c ∈ newCs, c.code = tok) ∧
        st2.candidates = newCs.foldl (dequeAppend MAX_CANDIDATES) st.candidates ∧
        st2.error_count = st.error_count ∧
        st2.success_count = st.success_count ∧
        st2.last_poll = st.last_poll := by
  intro entries
  induction entries with
  | nil =>
    intro st acc
    exact ⟨st, [], by simp [processEntryList], by simp, by simp,
      fun tok => by simp, by simp, rfl, rfl, rfl⟩
  | cons e es ih =>
    intro st acc
    rcases processTokens_ok now label e.title e.body e.url stype hgd
        (extract_tokens (e.title ++ '\n' :: e.body)) st acc with
      ⟨st1, newCs1, heq1, hnd1, hfresh1, hiff1, hcand1, he1, hs1, hp1⟩
    rcases ih st1 (acc ++ newCs1) with
      ⟨st2, newCs2, heq2, hnd2, hfresh2, hiff2, hcand2, he2, hs2, hp2⟩
    refine ⟨st2, newCs1 ++ newCs2, ?_, ?_, ?_, ?_, ?_, ?_, ?_, ?_⟩
    · rw [processEntryList, heq1]
      show processEntryList now label es st1 (acc ++ newCs1) = _
      rw [heq2]
      simp
    · rw [List.map_append]
      refine List.Nodup.append hnd1 hnd2 ?_
      intro a ha1 ha2
      rcases List.mem_map.mp ha1 with ⟨c1, hc1, rfl⟩
      rcases List.mem_map.mp ha2 with ⟨c2, hc2, hceq⟩
      have hfr2 := hfresh2 c2 hc2
      rw [hiff1] at hfr2
      exact hfr2 (Or.inr ⟨c1, hc1, hceq.symm⟩)
    · intro c hc
      rcases List.mem_append.mp hc with hc1 | hc2
      · exact hfresh1 c hc1
      · have := hfresh2 c hc2
        rw [hiff1] at this
        exact fun hcon => this (Or.inl hcon)
    · intro tok
      rw [hiff2, hiff1]
      constructor
      · rintro ((htk | ⟨c, hcm, rfl⟩) | ⟨c, hcm, rfl⟩)
        · exact Or.inl htk
        · exact Or.inr ⟨c, List.mem_append.mpr (Or.inl hcm), rfl⟩
        · exact Or.inr ⟨c, List.mem_append.mpr (Or.inr hcm), rfl⟩
      · rintro (htk | ⟨c, hcm, rfl⟩)
        · exact Or.inl (Or.inl htk)
        · rcases List.mem_append.mp hcm with h1 | h2
          · exact Or.inl (Or.inr ⟨c, h1, rfl⟩)
          · exact Or.inr ⟨c, h2, rfl⟩
    · rw [hcand2, hcand1, List.foldl_append]
    · rw [he2, he1]
    · rw [hs2, hs1]
    · rw [hp2, hp1]

theorem process_entries_ok {now : Nat} {label : List Char}
    (hg : goodLabel label = true) (entries : List Entry) (st : AppState) :
    ∃ st2 newCs,
      process_entries now entries label st = .ok (st2, newCs) ∧
      ((newCs.map (fun c => c.code)).Nodup) ∧
      (∀ c ∈ newCs, c.code ∉ st.seen_codes) ∧
      (∀ tok, tok ∈ st2.seen_codes ↔
        tok ∈ st.seen_codes ∨ ∃ c ∈ newCs, c.code = tok) ∧
      st2.candidates = newCs.foldl (dequeAppend MAX_CANDIDATES) st.candidates ∧
      st2.error_count = st.error_count ∧
      st2.success_count = st.success_count ∧
      st2.last_poll = st.last_poll := by
  rcases deriveSourceType_ok_of_good hg with ⟨stype, hgd⟩
  rcases processEntryList_ok now label stype hgd entries st [] with
    ⟨st2, newCs, heq, hrest⟩
  exact ⟨st2, newCs, by rw [process_entries, heq]; simp, hrest⟩

theorem processTokens_bad (now : Nat) (label title body url : List Char)
    (hgd : deriveSourceType label = .error ()) :
    ∀ (ts : List (List Char)) (st : AppState) (acc : List Candidate),
      ((∀ t ∈ ts, t ∈ st.seen_codes) →
        processTokens now label title body url ts st acc = .ok (st, acc)) ∧
      ((∃ t ∈ ts, t ∉ st.seen_codes) →
        ∃ tok, tok ∉ st.seen_codes ∧
          processTokens now label title body url ts st acc =
            .error { st with seen_codes := tok :: st.seen_codes }) := by
  intro ts
  induction ts with
  | nil =>
    intro st acc
    exact ⟨fun _ => rfl, fun h => by simp at h⟩
  | cons t ts ih =>
    intro st acc
    by_cases hmem : t ∈ st.seen_codes
    · constructor
      · intro hall
        rw [processTokens, processOneToken_seen hmem]
        exact (ih st acc).1 fun u hu => hall u (List.mem_cons_of_mem _ hu)
      · rintro ⟨u, hu, hufresh⟩
        rcases List.mem_cons.mp hu with rfl | hu2
        · exact absurd hmem hufresh
        · rcases (ih st acc).2 ⟨u, hu2, hufresh⟩ with ⟨tok, htf, heq⟩
          refine ⟨tok, htf, ?_⟩
          rw [processTokens, processOneToken_seen hmem]
          exact heq
    · constructor
      · intro hall
        exact absurd (hall t (List.mem_cons_self _ _)) hmem
      · intro _
        refine ⟨t, hmem, ?_⟩
        rw [processTokens, processOneToken_fresh_err hmem hgd]

theorem processEntryList_bad (now : Nat) (label : List Char)
    (hgd : deriveSourceType label = .error ()) :
    ∀ (entries : List Entry) (st : AppState) (acc : List Candidate),
      ((∀ e ∈ entries,
          ∀ t ∈ extract_tokens (e.title ++ '\n' :: e.body),
            t ∈ st.seen_codes) →
        processEntryList now label entries st acc = .ok (st, acc)) ∧
      ((∃ e ∈ entries,
          ∃ t ∈ extract_tokens (e.title ++ '\n' :: e.body),
            t ∉ st.seen_codes) →
        ∃ tok, tok ∉ st.seen_codes ∧
          processEntryList now label entries st acc =
            .error { st with seen_codes := tok :: st.seen_codes }) := by
  intro entries
  induction entries with
  | nil =>
    intro st acc
    exact ⟨fun _ => rfl, fun h => by simp at h⟩
  | cons e es ih =>
    intro st acc
    by_cases hall : ∀ t ∈ extract_tokens (e.title ++ '\n' :: e.body),
        t ∈ st.seen_codes
    · have hstep := (processTokens_bad now label e.title e.body e.url hgd
        (extract_tokens (e.title ++ '\n' :: e.body)) st acc).1 hall
      constructor
      · intro hae
        rw [processEntryList, hstep]
        exact (ih st acc).1 fun e2 he2 => hae e2 (List.mem_cons_of_mem _ he2)
      · rintro ⟨e2, he2, t2, ht2, ht2f⟩
        rcases List.mem_cons.mp he2 with rfl | he3
        · exact absurd (hall t2 ht2) ht2f
        · rcases (ih st acc).2 ⟨e2, he3, t2, ht2, ht2f⟩ with ⟨tok, htf, heq⟩
          refine ⟨tok, htf, ?_⟩
          rw [processEntryList, hstep]
          exact heq
    · push_neg at hall
      rcases hall with ⟨t, ht, htf⟩
      have hstep := (processTokens_bad now label e.title e.body e.url hgd
        (extract_tokens (e.title ++ '\n' :: e.body)) st acc).2 ⟨t, ht, htf⟩
      rcases hstep with ⟨tok, htokf, heq⟩
      constructor
      · intro hae
        exact absurd (hae e (List.mem_cons_self _ _) t ht) htf
      · intro _
        refine ⟨tok, htokf, ?_⟩
        rw [processEntryList, heq]

/-- C10: calling `_process_entries` with a non-empty, all-whitespace
source label on entries containing at least one extractable unseen token
raises `IndexError` (from `source_label.split()[0]`) after the first such
token was added to the seen set and before any candidate was appended; the
seen-set mutation is not rolled back, so the resulting state has a token
marked seen with no candidate ever created for it. -/
theorem whitespace_label_indexerror (now : Nat) (entries : List Entry)
    (label : List Char) (st : AppState)
    (h1 : label ≠ []) (h2 : ∀ c ∈ label, isPySpace c = true)
    (h3 : ∃ e ∈ entries,
      ∃ t ∈ extract_tokens (e.title ++ '\n' :: e.body),
        t ∉ st.seen_codes) :
    ∃ tok, tok ∉ st.seen_codes ∧
      process_entries now entries label st =
        .error { st with seen_codes := tok :: st.seen_codes } ∧
      ({ st with seen_codes := tok :: st.seen_codes } : AppState).candidates =
        st.candidates := by
  have hgd := deriveSourceType_error_of_space h1 h2
  rcases (processEntryList_bad now label hgd entries st []).2 h3 with
    ⟨tok, htf, heq⟩
  exact ⟨tok, htf, by rw [process_entries, heq], rfl⟩

/-- Witness for C10 at a concrete call: one entry whose title contains the
fresh token `AB12C`, label a single space. -/
theorem whitespace_label_indexerror_witness :
    ∃ tok, tok ∉ initialState.seen_codes ∧
      process_entries 0 [{ title := "AB12C".toList, body := [], url := [] }]
        [' '] initialState =
        .error { initialState with seen_codes := tok :: initialState.seen_codes } ∧
      ({ initialState with
          seen_codes := tok :: initialState.seen_codes } : AppState).candidates =
        initialState.candidates := by
  have hfb : findBounded false
      (("AB12C".toList ++ '\n' :: ([] : List Char)).map Char.toUpper) =
      ["AB12C".toList] := by
    simp [findBounded, tokChar, wordChar]
  have hext : extract_tokens ("AB12C".toList ++ '\n' :: ([] : List Char)) =
      ["AB12C".toList] := by
    rw [extract_tokens, tokenCandidates, hfb]
    decide
  refine whitespace_label_indexerror 0 _ [' '] initialState (by decide)
    (by decide) ?_
  refine ⟨_, List.mem_cons_self _ _, "AB12C".toList, ?_, by decide⟩
  show "AB12C".toList ∈ extract_tokens ("AB12C".toList ++ '\n' :: [])
  rw [hext]
  exact List.mem_singleton_self _

theorem filter_code_length_one {tok : List Char} :
    ∀ {created : List Candidate},
      (created.map (fun c => c.code)).Nodup →
      (((created.filter (fun c => c.code = tok)).length = 1) ↔
        ∃ c ∈ created, c.code = tok) := by
  intro created
  induction created with
  | nil => intro _; simp
  | cons c cs ih =>
    intro hnd
    rcases List.nodup_cons.mp hnd with ⟨hcs, hnd2⟩
    by_cases hc : c.code = tok
    · rw [List.filter_cons_of_pos (by simpa using hc)]
      have hnil : cs.filter (fun x => x.code = tok) = [] := by
        rw [List.filter_eq_nil_iff]
        intro x hx hcon
        have hxeq : x.code = tok := by simpa using hcon
        refine hcs ?_
        rw [← hc] at hxeq
        exact List.mem_map.mpr ⟨x, hx, hxeq⟩
      rw [hnil]
      simp only [List.length_cons, List.length_nil]
      constructor
      · intro _
        exact ⟨c, List.mem_cons_self _ _, hc⟩
      · intro _
        trivial
    · rw [List.filter_cons_of_neg (by simpa using hc)]
      rw [ih hnd2]
      constructor
      · rintro ⟨x, hx, rfl⟩
        exact ⟨x, List.mem_cons_of_mem _ hx, rfl⟩
      · rintro ⟨x, hx, rfl⟩
        rcases List.mem_cons.mp hx with rfl | hx2
        · exact absurd rfl hc
        · exact ⟨x, hx2, rfl⟩

theorem runCalls_inv (now : Nat) :
    ∀ (calls : List (List Entry × List Char)) (st : AppState)
      (created : List Candidate),
      (∀ p ∈ calls, goodLabel p.2 = true) →
      (∀ tok, tok ∈ st.seen_codes ↔ ∃ c ∈ created, c.code = tok) →
      ((created.map (fun c => c.code)).Nodup) →
      st.candidates = appendAll MAX_CANDIDATES created →
      (∀ tok, tok ∈ (runCalls now calls st).1.seen_codes ↔
        ∃ c ∈ created ++ (runCalls now calls st).2, c.code = tok) ∧
      (((created ++ (runCalls now calls st).2).map (fun c => c.code)).Nodup) ∧
      (runCalls now calls st).1.candidates =
        appendAll MAX_CANDIDATES (created ++ (runCalls now calls st).2) := by
  intro calls
  induction calls with
  | nil =>
    intro st created hg hiff hnd hcand
    refine ⟨?_, ?_, ?_⟩
    · intro tok
      simpa [runCalls] using hiff tok
    · simpa [runCalls] using hnd
    · simpa [runCalls] using hcand
  | cons p rest ih =>
    rcases p with ⟨es, lbl⟩
    intro st created hg hiff hnd hcand
    have hglbl : goodLabel lbl = true := hg _ (List.mem_cons_self _ _)
    rcases process_entries_ok hglbl es st with
      ⟨st1, newCs, heq, hnd1, hfresh1, hiff1, hcand1, _, _, _⟩
    have h1 : (runCalls now ((es, lbl) :: rest) st).1 =
        (runCalls now rest st1).1 := by
      rw [runCalls, heq]
    have h2 : (runCalls now ((es, lbl) :: rest) st).2 =
        newCs ++ (runCalls now rest st1).2 := by
      rw [runCalls, heq]
    have hiffB : ∀ tok, tok ∈ st1.seen_codes ↔
        ∃ c ∈ created ++ newCs, c.code = tok := by
      intro tok
      rw [hiff1 tok, hiff tok]
      constructor
      · rintro (⟨c, hc, rfl⟩ | ⟨c, hc, rfl⟩)
        · exact ⟨c, List.mem_append.mpr (Or.inl hc), rfl⟩
        · exact ⟨c, List.mem_append.mpr (Or.inr hc), rfl⟩
      · rintro ⟨c, hc, rfl⟩
        rcases List.mem_append.mp hc with hm | hm
        · exact Or.inl ⟨c, hm, rfl⟩
        · exact Or.inr ⟨c, hm, rfl⟩
    have hndB : ((created ++ newCs).map (fun c => c.code)).Nodup := by
      rw [List.map_append]
      refine List.Nodup.append hnd hnd1 ?_
      intro a ha1 ha2
      rcases List.mem_map.mp ha1 with ⟨c1, hc1, hceq1⟩
      rcases List.mem_map.mp ha2 with ⟨c2, hc2, hceq2⟩
      have hfr := hfresh1 c2 hc2
      rw [hiff] at hfr
      refine hfr ⟨c1, hc1, ?_⟩
      show c1.code = c2.code
      have e1 : c1.code = a := hceq1
      have e2 : c2.code = a := hceq2
      rw [e1, e2]
    have hcandB : st1.candidates = appendAll MAX_CANDIDATES (created ++ newCs) := by
      rw [hcand1, hcand]
      unfold appendAll
      rw [List.foldl_append]
    have hres := ih st1 (created ++ newCs)
      (fun q hq => hg q (List.mem_cons_of_mem _ hq)) hiffB hndB hcandB
    rw [h1, h2]
    refine ⟨?_, ?_, ?_⟩
    · intro tok
      rw [hres.1 tok]
      rw [List.append_assoc]
    · rw [← List.append_assoc]
      exact hres.2.1
    · rw [← List.append_assoc]
      exact hres.2.2

/-- C1 counterexample: the whitespace-label `IndexError` leaves a token in
the seen set with no candidate ever created, so "a token is in the seen
set iff exactly one Candidate with that code has ever been created" fails
for the single-call sequence below: `AB12C` is seen, yet the buffer is
empty and the call produced no candidate. -/
theorem seen_iff_unique_candidate_ce :
    process_entries 0 [{ title := "AB12C".toList, body := [], url := [] }]
      [' '] initialState =
      .error { initialState with seen_codes := ["AB12C".toList] } ∧
    "AB12C".toList ∈
      ({ initialState with
          seen_codes := ["AB12C".toList] } : AppState).seen_codes ∧
    ({ initialState with
        seen_codes := ["AB12C".toList] } : AppState).candidates = [] := by
  have hfb : findBounded false
      (("AB12C".toList ++ '\n' :: ([] : List Char)).map Char.toUpper) =
      ["AB12C".toList] := by
    simp [findBounded, tokChar, wordChar]
  have hext : extract_tokens ("AB12C".toList ++ '\n' :: ([] : List Char)) =
      ["AB12C".toList] := by
    rw [extract_tokens, tokenCandidates, hfb]
    decide
  have h1 : process_entries 0
      [{ title := "AB12C".toList, body := [], url := [] }] [' ']
      initialState =
      (match processTokens 0 [' '] "AB12C".toList [] []
          (extract_tokens ("AB12C".toList ++ '\n' :: ([] : List Char)))
          initialState [] with
        | .error st1 => .error st1
        | .ok (st1, acc1) => processEntryList 0 [' '] [] st1 acc1) := rfl
  rw [hext] at h1
  refine ⟨?_, List.mem_singleton_self _, rfl⟩
  rw [h1]
  decide

/-- C1 amended: for any single-producer sequence of `_process_entries`
calls whose labels are empty or contain a word (so the whitespace-label
`IndexError` of C10 cannot fire), a token is in the seen set iff exactly
one candidate with that code has ever been created; no two candidates in
the buffer share a code; and a token is always marked seen atomically
with, and strictly before, its candidate is appended (any candidate
present after a single token step was either already present or its code
is in the seen set of the resulting state). -/
theorem seen_iff_unique_candidate (now : Nat)
    (calls : List (List Entry × List Char))
    (hg : ∀ p ∈ calls, goodLabel p.2 = true) :
    (∀ tok, tok ∈ (runCalls now calls initialState).1.seen_codes ↔
      (((runCalls now calls initialState).2.filter
        (fun c => c.code = tok)).length = 1)) ∧
    (((runCalls now calls initialState).2.map (fun c => c.code)).Nodup) ∧
    (((runCalls now calls initialState).1.candidates.map
      (fun c => c.code)).Nodup) ∧
    (∀ c ∈ (runCalls now calls initialState).1.candidates,
      c.code ∈ (runCalls now calls initialState).1.seen_codes) ∧
    (∀ (label2 t2 b2 u2 tok : List Char) (st st2 : AppState),
      ((∃ oc, processOneToken now label2 t2 b2 u2 st tok = .ok (st2, oc)) ∨
        processOneToken now label2 t2 b2 u2 st tok = .error st2) →
      ∀ c ∈ st2.candidates, c ∈ st.candidates ∨ c.code ∈ st2.seen_codes) := by
  have hinit1 : ∀ tok, tok ∈ initialState.seen_codes ↔
      ∃ c ∈ ([] : List Candidate), c.code = tok := by
    intro tok
    simp [initialState]
  have hres := runCalls_inv now calls initialState [] hg hinit1 (by simp)
    (by simp [initialState, appendAll])
  rcases hres with ⟨hiff, hnd, hcand⟩
  simp only [List.nil_append] at hiff hnd hcand
  have hMC : 0 < MAX_CANDIDATES := by decide
  refine ⟨?_, hnd, ?_, ?_, ?_⟩
  · intro tok
    rw [hiff tok]
    exact (filter_code_length_one hnd).symm
  · rw [hcand, appendAll_eq_drop hMC]
    exact List.Nodup.sublist ((List.drop_sublist _ _).map _) hnd
  · intro c hc
    rw [hcand, appendAll_eq_drop hMC] at hc
    exact (hiff c.code).mpr ⟨c, List.mem_of_mem_drop hc, rfl⟩
  · intro label2 t2 b2 u2 tok st st2 hstep c hc
    by_cases hmem : tok ∈ st.seen_codes
    · have hrun := @processOneToken_seen now label2 t2 b2 u2 _ _ hmem
      rcases hstep with ⟨oc, hok⟩ | herr
      · rw [hrun] at hok
        injection hok with hok2
        have : st2 = st := (congrArg Prod.fst hok2).symm
        rw [this] at hc
        exact Or.inl hc
      · rw [hrun] at herr
        cases herr
    · cases hgd : deriveSourceType label2 with
      | error u =>
        have hrun := @processOneToken_fresh_err now label2 t2 b2 u2 tok st
          hmem (by cases u; exact hgd)
        rcases hstep with ⟨oc, hok⟩ | herr
        · rw [hrun] at hok
          cases hok
        · rw [hrun] at herr
          injection herr with herr2
          rw [← herr2] at hc
          exact Or.inl hc
      | ok stype =>
        rcases processOneToken_fresh_ok hmem hgd with
          ⟨st2b, cand, hok2, hcode, hseen2, hcand2, _, _, _⟩
        rcases hstep with ⟨oc, hok⟩ | herr
        · rw [hok2] at hok
          injection hok with hok3
          have hst : st2 = st2b := (congrArg Prod.fst hok3).symm
          rw [hst] at hc ⊢
          rw [hcand2] at hc
          rcases mem_dequeAppend hc with hm | rfl
          · exact Or.inl hm
          · right
            rw [hseen2, hcode]
            exact List.mem_cons_self _ _
        · rw [hok2] at herr
          cases herr

/-- Witness for the amended C1 at a concrete one-call run with a proper
label. -/
theorem seen_iff_unique_candidate_witness :
    "AB12C".toList ∈
      (runCalls 0 [([{ title := "AB12C".toList, body := [], url := [] }],
        "Reddit search".toList)] initialState).1.seen_codes ↔
      (((runCalls 0 [([{ title := "AB12C".toList, body := [], url := [] }],
        "Reddit search".toList)] initialState).2.filter
          (fun c => c.code = "AB12C".toList)).length = 1) :=
  (seen_iff_unique_candidate 0
    [([{ title := "AB12C".toList, body := [], url := [] }],
      "Reddit search".toList)] (by decide)).1 "AB12C".toList

theorem pollOne_disabled {now : Nat} {st : AppState} {src : SourceSpec}
    (h : src.enabled = false) :
    pollOne now st src = (st, src, [], []) := by
  unfold pollOne
  rw [if_pos h]

theorem pollOne_fetch_error {now : Nat} {st : AppState} {src : SourceSpec}
    {e : List Char} (he : src.enabled = true) (hf : src.fetchResult = .error e) :
    pollOne now st src =
      ({ log_event now st (.sourceError src.name e) .error with
          error_count := st.error_count + 1 },
       applySourceFailure now src, [],
       [.fetch src.name, .logged .error (.sourceError src.name e)]) := by
  unfold pollOne
  rw [if_neg (by simp [he]), hf]
  rfl

theorem pollOne_proc_error {now : Nat} {st st1 : AppState} {src : SourceSpec}
    {entries : List Entry} (he : src.enabled = true)
    (hf : src.fetchResult = .ok entries)
    (hpe : process_entries now entries src.name st = .error st1) :
    pollOne now st src =
      ({ log_event now st1 (.sourceError src.name indexErrorText) .error with
          error_count := st1.error_count + 1 },
       applySourceFailure now src, [],
       [.fetch src.name,
        .logged .error (.sourceError src.name indexErrorText)]) := by
  unfold pollOne
  rw [if_neg (by simp [he])]
  simp only [hf]
  rw [hpe]
  rfl

theorem pollOne_fetch_ok {now : Nat} {st st1 : AppState} {src : SourceSpec}
    {entries : List Entry} {newCands : List Candidate}
    (he : src.enabled = true) (hf : src.fetchResult = .ok entries)
    (hpe : process_entries now entries src.name st = .ok (st1, newCands)) :
    pollOne now st src =
      (log_event now { st1 with success_count := st1.success_count + 1 }
         (.sourceOk src.name entries.length newCands.length) .debug,
       applySourceSuccess now src, newCands,
       .fetch src.name ::
         newCands.map (fun c => Ev.logged .success
           (.newCandidate c.code (srcDescOf src.name) c.confidence_score)) ++
         [.procOk src.name entries.length newCands.length,
          .logged .debug (.sourceOk src.name entries.length newCands.length)] ++
         (if 0 < src.rate_limit_delay then
           [.rateSleep src.name src.rate_limit_delay]
          else [])) := by
  unfold pollOne
  rw [if_neg (by simp [he])]
  simp only [hf]
  rw [hpe]

theorem filter_newCand_errorLog_nil (nm e name : List Char)
    (cs : List Candidate) :
    ((cs.map (fun c => Ev.logged .success
      (.newCandidate c.code (srcDescOf name) c.confidence_score))).filter
        (isErrorLogFor nm e)) = [] := by
  rw [List.filter_eq_nil_iff]
  intro a ha
  rcases List.mem_map.mp ha with ⟨c, _, rfl⟩
  simp [isErrorLogFor]

theorem filter_newCand_procOk_nil (nm name : List Char) (cs : List Candidate) :
    ((cs.map (fun c => Ev.logged .success
      (.newCandidate c.code (srcDescOf name) c.confidence_score))).filter
        (isProcOkFor nm)) = [] := by
  rw [List.filter_eq_nil_iff]
  intro a ha
  rcases List.mem_map.mp ha with ⟨c, _, rfl⟩
  simp [isProcOkFor]

theorem filter_newCand_rateSleep_nil (name : List Char) (cs : List Candidate) :
    ((cs.map (fun c => Ev.logged .success
      (.newCandidate c.code (srcDescOf name) c.confidence_score))).filter
        isRateSleepEv) = [] := by
  rw [List.filter_eq_nil_iff]
  intro a ha
  rcases List.mem_map.mp ha with ⟨c, _, rfl⟩
  simp [isRateSleepEv]

set_option maxHeartbeats 1000000

theorem errEvs_filter_errorLog_self (name e : List Char) :
    (([Ev.fetch name,
       Ev.logged .error (.sourceError name e)]).filter
        (isErrorLogFor name e)) = [Ev.logged .error (.sourceError name e)] := by
  simp [List.filter_cons, isErrorLogFor]

theorem errEvs_filter_errorLog_ne {name nm : List Char} (e e2 : List Char)
    (hne : name ≠ nm) :
    (([Ev.fetch name,
       Ev.logged .error (.sourceError name e)]).filter
        (isErrorLogFor nm e2)) = [] := by
  simp [List.filter_cons, isErrorLogFor, hne]

theorem errEvs_filter_procOk (name e nm : List Char) :
    (([Ev.fetch name,
       Ev.logged .error (.sourceError name e)]).filter
        (isProcOkFor nm)) = [] := by
  simp [List.filter_cons, isProcOkFor]

theorem filterMap_newCand_fetchName_nil (name : List Char)
    (cs : List Candidate) :
    ((cs.map (fun c => Ev.logged .success
      (.newCandidate c.code (srcDescOf name) c.confidence_score))).filterMap
        evFetchName) = [] := by
  rw [List.filterMap_eq_nil_iff]
  intro a ha
  rcases List.mem_map.mp ha with ⟨c, _, rfl⟩
  rfl

theorem errEvs_filterMap_fetchName (name e : List Char) :
    (([Ev.fetch name,
       Ev.logged .error (.sourceError name e)]).filterMap evFetchName) =
      [name] := by
  simp [List.filterMap_cons, evFetchName]

theorem okEvs_filterMap_fetchName (name : List Char) (cs : List Candidate)
    (items k : Nat) (d : ℚ) :
    ((Ev.fetch name ::
      cs.map (fun c => Ev.logged .success
        (.newCandidate c.code (srcDescOf name) c.confidence_score)) ++
      [Ev.procOk name items k, Ev.logged .debug (.sourceOk name items k)] ++
      (if 0 < d then [Ev.rateSleep name d] else [])).filterMap evFetchName) =
      [name] := by
  by_cases hd : 0 < d <;>
    simp [hd, List.filterMap_append, List.filterMap_cons, evFetchName,
      filterMap_newCand_fetchName_nil]

theorem okEvs_filter_errorLog (nm e2 name : List Char) (cs : List Candidate)
    (items k : Nat) (d : ℚ) :
    ((Ev.fetch name ::
      cs.map (fun c => Ev.logged .success
        (.newCandidate c.code (srcDescOf name) c.confidence_score)) ++
      [Ev.procOk name items k, Ev.logged .debug (.sourceOk name items k)] ++
      (if 0 < d then [Ev.rateSleep name d] else [])).filter
        (isErrorLogFor nm e2)) = [] := by
  by_cases hd : 0 < d <;>
    simp [hd, List.filter_append, List.filter_cons, isErrorLogFor,
      filter_newCand_errorLog_nil]

theorem okEvs_filter_procOk_ne {name nm : List Char} (hne : name ≠ nm)
    (cs : List Candidate) (items k : Nat) (d : ℚ) :
    ((Ev.fetch name ::
      cs.map (fun c => Ev.logged .success
        (.newCandidate c.code (srcDescOf name) c.confidence_score)) ++
      [Ev.procOk name items k, Ev.logged .debug (.sourceOk name items k)] ++
      (if 0 < d then [Ev.rateSleep name d] else [])).filter
        (isProcOkFor nm)) = [] := by
  by_cases hd : 0 < d <;>
    simp [hd, List.filter_append, List.filter_cons, isProcOkFor, hne,
      filter_newCand_procOk_nil]

theorem okEvs_filter_procOk_self (name : List Char) (cs : List Candidate)
    (items k : Nat) (d : ℚ) :
    ((Ev.fetch name ::
      cs.map (fun c => Ev.logged .success
        (.newCandidate c.code (srcDescOf name) c.confidence_score)) ++
      [Ev.procOk name items k, Ev.logged .debug (.sourceOk name items k)] ++
      (if 0 < d then [Ev.rateSleep name d] else [])).filter
        (isProcOkFor name)) = [Ev.procOk name items k] := by
  by_cases hd : 0 < d <;>
    simp [hd, List.filter_append, List.filter_cons, isProcOkFor,
      filter_newCand_procOk_nil]


theorem pollAll_spec (now : Nat) :
    ∀ (sources : List SourceSpec) (st : AppState),
      (∀ s ∈ sources, goodLabel s.name = true) →
      ((sources.map (fun s => s.name)).Nodup) →
      ((pollAll now sources st).2.2.2.filterMap evFetchName =
        (sources.filter (fun s => s.enabled)).map (fun s => s.name)) ∧
      ((pollAll now sources st).1.error_count =
        st.error_count +
          (sources.filter (fun s => s.enabled && fetchFailed s)).length) ∧
      ((pollAll now sources st).1.success_count =
        st.success_count +
          (sources.filter (fun s => s.enabled && !fetchFailed s)).length) ∧
      ((pollAll now sources st).1.last_poll = st.last_poll) ∧
      List.Forall₂ (healthStep now) sources (pollAll now sources st).2.1 ∧
      (∀ nm e, nm ∉ sources.map (fun s => s.name) →
        ((pollAll now sources st).2.2.2.filter (isErrorLogFor nm e)) = [] ∧
        ((pollAll now sources st).2.2.2.filter (isProcOkFor nm)) = []) ∧
      (∀ s ∈ sources, s.enabled = true → ∀ e, s.fetchResult = .error e →
        ((pollAll now sources st).2.2.2.filter
          (isErrorLogFor s.name e)).length = 1 ∧
        ((pollAll now sources st).2.2.2.filter (isProcOkFor s.name)).length = 0) ∧
      (∀ s ∈ sources, s.enabled = true → ∀ es, s.fetchResult = .ok es →
        ((pollAll now sources st).2.2.2.filter (isProcOkFor s.name)).length = 1) := by
  intro sources
  induction sources with
  | nil =>
    intro st hg hnd
    refine ⟨?_, ?_, ?_, ?_, ?_, ?_, ?_, ?_⟩ <;>
      simp [pollAll]
  | cons src rest ih =>
    intro st hg hnd
    have hgrest : ∀ s ∈ rest, goodLabel s.name = true :=
      fun s hs => hg s (List.mem_cons_of_mem _ hs)
    have hndrest : ((rest.map (fun s => s.name)).Nodup) :=
      (List.nodup_cons.mp hnd).2
    have hnamefresh : src.name ∉ rest.map (fun s => s.name) :=
      (List.nodup_cons.mp hnd).1
    have hnames : ∀ s ∈ rest, s.name ≠ src.name := by
      intro s hs hcon
      exact hnamefresh (hcon ▸ List.mem_map.mpr ⟨s, hs, rfl⟩)
    cases hen : src.enabled with
    | false =>
      have hr1 := @pollOne_disabled now st _ hen
      have hpa : pollAll now (src :: rest) st =
          ((pollAll now rest st).1, src :: (pollAll now rest st).2.1,
            (pollAll now rest st).2.2.1, (pollAll now rest st).2.2.2) := by
        rw [pollAll, hr1]
        simp
      rcases ih st hgrest hndrest with ⟨iA, iB, iC, iD, iE, iH, iF, iG⟩
      rw [hpa]
      refine ⟨?_, ?_, ?_, ?_, ?_, ?_, ?_, ?_⟩
      · rw [List.filter_cons_of_neg (by simp [hen])]
        exact iA
      · rw [List.filter_cons_of_neg (by simp [hen])]
        exact iB
      · rw [List.filter_cons_of_neg (by simp [hen])]
        exact iC
      · exact iD
      · have hh : healthStep now src src := by
          unfold healthStep
          exact ⟨fun _ => rfl, fun h => by simp [hen] at h,
            fun h => by simp [hen] at h⟩
        exact List.Forall₂.cons hh iE
      · intro nm e hnm
        exact iH nm e fun hmem =>
          hnm (List.mem_cons_of_mem _ hmem)
      · intro s hs hsen e hsf
        rcases List.mem_cons.mp hs with rfl | hs2
        · rw [hen] at hsen; cases hsen
        · exact iF s hs2 hsen e hsf
      · intro s hs hsen es hsf
        rcases List.mem_cons.mp hs with rfl | hs2
        · rw [hen] at hsen; cases hsen
        · exact iG s hs2 hsen es hsf
    | true =>
      cases hfr : src.fetchResult with
      | error e =>
        have hr1 := @pollOne_fetch_error now st _ _ hen hfr
        have hpa : pollAll now (src :: rest) st =
            ((pollAll now rest
                ({ log_event now st (.sourceError src.name e) .error with
                    error_count := st.error_count + 1 })).1,
              applySourceFailure now src ::
                (pollAll now rest
                  ({ log_event now st (.sourceError src.name e) .error with
                      error_count := st.error_count + 1 })).2.1,
              (pollAll now rest
                ({ log_event now st (.sourceError src.name e) .error with
                    error_count := st.error_count + 1 })).2.2.1,
              ([Ev.fetch src.name,
                Ev.logged .error (.sourceError src.name e)] : List Ev) ++
                (pollAll now rest
                  ({ log_event now st (.sourceError src.name e) .error with
                      error_count := st.error_count + 1 })).2.2.2) := by
          rw [pollAll, hr1]
          rfl
        rcases ih ({ log_event now st (.sourceError src.name e) .error with
            error_count := st.error_count + 1 }) hgrest hndrest with
          ⟨iA, iB, iC, iD, iE, iH, iF, iG⟩
        rw [hpa]
        refine ⟨?_, ?_, ?_, ?_, ?_, ?_, ?_, ?_⟩
        · rw [List.filterMap_append, errEvs_filterMap_fetchName,
            List.filter_cons_of_pos (by simp [hen]), List.map_cons, iA]
          rfl
        · rw [iB, List.filter_cons_of_pos (by simp [hen, fetchFailed, hfr]),
            List.length_cons]
          have he2 : ({ log_event now st (.sourceError src.name e) .error with
              error_count := st.error_count + 1 } : AppState).error_count =
              st.error_count + 1 := rfl
          rw [he2]
          omega
        · rw [iC, List.filter_cons_of_neg (by simp [fetchFailed, hfr])]
          rfl
        · exact iD
        · have hh : healthStep now src (applySourceFailure now src) := by
            unfold healthStep
            exact ⟨fun h => by simp [hen] at h, fun _ _ => rfl,
              fun _ h => by simp [fetchFailed, hfr] at h⟩
          exact List.Forall₂.cons hh iE
        · intro nm e2 hnm
          have hne : src.name ≠ nm := fun hcon =>
            hnm (hcon ▸ List.mem_map.mpr ⟨src, List.mem_cons_self _ _, rfl⟩)
          have hnm2 : nm ∉ rest.map (fun s => s.name) := fun hmem => by
            simp only [List.map_cons, List.mem_cons] at hnm
            exact hnm (Or.inr hmem)
          rcases iH nm e2 hnm2 with ⟨iH1, iH2⟩
          constructor
          · rw [List.filter_append, errEvs_filter_errorLog_ne e e2 hne, iH1,
              List.nil_append]
          · rw [List.filter_append, errEvs_filter_procOk, iH2,
              List.nil_append]
        · intro s hs hsen e2 hsf
          rcases List.mem_cons.mp hs with rfl | hs2
          · rw [hfr] at hsf
            injection hsf with hee
            subst hee
            rcases iH s.name e hnamefresh with ⟨iH1, iH2⟩
            constructor
            · rw [List.filter_append, errEvs_filter_errorLog_self, iH1]
              rfl
            · rw [List.filter_append, errEvs_filter_procOk, iH2]
              rfl
          · rcases iF s hs2 hsen e2 hsf with ⟨iF1, iF2⟩
            constructor
            · rw [List.filter_append,
                errEvs_filter_errorLog_ne e e2 (Ne.symm (hnames s hs2)),
                List.nil_append]
              exact iF1
            · rw [List.filter_append, errEvs_filter_procOk, List.nil_append]
              exact iF2
        · intro s hs hsen es hsf
          rcases List.mem_cons.mp hs with rfl | hs2
          · rw [hfr] at hsf
            cases hsf
          · rw [List.filter_append, errEvs_filter_procOk, List.nil_append]
            exact iG s hs2 hsen es hsf
      | ok entries =>
        rcases process_entries_ok (hg src (List.mem_cons_self _ _)) entries st
          with ⟨st1, newCands, hpe, _, _, _, _, hpeE, hpeS, hpeP⟩
        have hr1 := pollOne_fetch_ok hen hfr hpe
        have hpa : pollAll now (src :: rest) st =
            ((pollAll now rest
                (log_event now { st1 with
                    success_count := st1.success_count + 1 }
                  (.sourceOk src.name entries.length newCands.length)
                  .debug)).1,
              applySourceSuccess now src ::
                (pollAll now rest
                  (log_event now { st1 with
                      success_count := st1.success_count + 1 }
                    (.sourceOk src.name entries.length newCands.length)
                    .debug)).2.1,
              newCands ++
                (pollAll now rest
                  (log_event now { st1 with
                      success_count := st1.success_count + 1 }
                    (.sourceOk src.name entries.length newCands.length)
                    .debug)).2.2.1,
              (Ev.fetch src.name ::
                newCands.map (fun c => Ev.logged .success
                  (.newCandidate c.code (srcDescOf src.name)
                    c.confidence_score)) ++
                [Ev.procOk src.name entries.length newCands.length,
                 Ev.logged .debug
                   (.sourceOk src.name entries.length newCands.length)] ++
                (if 0 < src.rate_limit_delay then
                  [Ev.rateSleep src.name src.rate_limit_delay]
                 else [])) ++
                (pollAll now rest
                  (log_event now { st1 with
                      success_count := st1.success_count + 1 }
                    (.sourceOk src.name entries.length newCands.length)
                    .debug)).2.2.2) := by
          rw [pollAll, hr1]
        rcases ih (log_event now { st1 with
            success_count := st1.success_count + 1 }
          (.sourceOk src.name entries.length newCands.length) .debug)
          hgrest hndrest with ⟨iA, iB, iC, iD, iE, iH, iF, iG⟩
        have hfrE : (log_event now { st1 with
            success_count := st1.success_count + 1 }
          (.sourceOk src.name entries.length newCands.length)
            .debug).error_count = st1.error_count := rfl
        have hfrS : (log_event now { st1 with
            success_count := st1.success_count + 1 }
          (.sourceOk src.name entries.length newCands.length)
            .debug).success_count = st1.success_count + 1 := rfl
        have hfrP : (log_event now { st1 with
            success_count := st1.success_count + 1 }
          (.sourceOk src.name entries.length newCands.length)
            .debug).last_poll = st1.last_poll := rfl
        rw [hpa]
        refine ⟨?_, ?_, ?_, ?_, ?_, ?_, ?_, ?_⟩
        · rw [List.filterMap_append, okEvs_filterMap_fetchName,
            List.filter_cons_of_pos (by simp [hen]), List.map_cons, iA]
          rfl
        · rw [iB, hfrE, hpeE,
            List.filter_cons_of_neg (by simp [hen, fetchFailed, hfr])]
        · rw [iC, hfrS, hpeS,
            List.filter_cons_of_pos (by simp [hen, fetchFailed, hfr]),
            List.length_cons]
          omega
        · rw [iD, hfrP, hpeP]
        · have hh : healthStep now src (applySourceSuccess now src) := by
            unfold healthStep
            exact ⟨fun h => by simp [hen] at h,
              fun _ h => by simp [fetchFailed, hfr] at h, fun _ _ => rfl⟩
          exact List.Forall₂.cons hh iE
        · intro nm e2 hnm
          have hne : src.name ≠ nm := fun hcon =>
            hnm (hcon ▸ List.mem_map.mpr ⟨src, List.mem_cons_self _ _, rfl⟩)
          have hnm2 : nm ∉ rest.map (fun s => s.name) := fun hmem => by
            simp only [List.map_cons, List.mem_cons] at hnm
            exact hnm (Or.inr hmem)
          rcases iH nm e2 hnm2 with ⟨iH1, iH2⟩
          constructor
          · rw [List.filter_append, okEvs_filter_errorLog, iH1,
              List.nil_append]
          · rw [List.filter_append, okEvs_filter_procOk_ne hne, iH2,
              List.nil_append]
        · intro s hs hsen e2 hsf
          rcases List.mem_cons.mp hs with rfl | hs2
          · rw [hfr] at hsf
            cases hsf
          · rcases iF s hs2 hsen e2 hsf with ⟨iF1, iF2⟩
            constructor
            · rw [List.filter_append, okEvs_filter_errorLog, List.nil_append]
              exact iF1
            · rw [List.filter_append,
                okEvs_filter_procOk_ne (Ne.symm (hnames s hs2)),
                List.nil_append]
              exact iF2
        · intro s hs hsen es hsf
          rcases List.mem_cons.mp hs with rfl | hs2
          · rcases iH s.name [] hnamefresh with ⟨iH1, iH2⟩
            rw [List.filter_append, okEvs_filter_procOk_self, iH2]
            rfl
          · rw [List.filter_append,
              okEvs_filter_procOk_ne (Ne.symm (hnames s hs2)),
              List.nil_append]
            exact iG s hs2 hsen es hsf

theorem wrapEvs_filter_errorLog (nm e : List Char) {lvl : LogLevel}
    (msg : LogMsg) (d : ℚ) (hlvl : lvl ≠ .error) :
    (([Ev.logged lvl msg, Ev.endSleep d]).filter (isErrorLogFor nm e)) = [] := by
  cases lvl with
  | error => exact absurd rfl hlvl
  | info => simp [List.filter_cons, isErrorLogFor]
  | debug => simp [List.filter_cons, isErrorLogFor]
  | success => simp [List.filter_cons, isErrorLogFor]

/-- C3: per-source failure isolation of one poll cycle.  With
well-formed source names (each empty or containing a word, and pairwise
distinct), a cycle over any source list with any fetch outcomes: invokes
every enabled source in registration order; increments the error counter
once per enabled failing source and the success counter once per enabled
succeeding source; updates each source's health according to its own
outcome only; logs the error of each enabled failing source exactly once
and completes processing of each enabled succeeding source exactly once;
processes no failing source; and always finishes the cycle, setting
`last_poll` — no failure aborts or skips the cycle. -/
theorem cycle_failure_isolation (now : Nat) (interval elapsed : ℚ)
    (st : AppState) (sources : List SourceSpec)
    (hg : ∀ s ∈ sources, goodLabel s.name = true)
    (hnd : (sources.map (fun s => s.name)).Nodup) :
    ((pollCycle now interval elapsed st sources).2.2.2.1.filterMap
        evFetchName =
      (sources.filter (fun s => s.enabled)).map (fun s => s.name)) ∧
    ((pollCycle now interval elapsed st sources).1.error_count =
      st.error_count +
        (sources.filter (fun s => s.enabled && fetchFailed s)).length) ∧
    ((pollCycle now interval elapsed st sources).1.success_count =
      st.success_count +
        (sources.filter (fun s => s.enabled && !fetchFailed s)).length) ∧
    List.Forall₂ (healthStep now) sources
      (pollCycle now interval elapsed st sources).2.1 ∧
    (∀ s ∈ sources, s.enabled = true → ∀ e, s.fetchResult = .error e →
      ((pollCycle now interval elapsed st sources).2.2.2.1.filter
        (isErrorLogFor s.name e)).length = 1 ∧
      ((pollCycle now interval elapsed st sources).2.2.2.1.filter
        (isProcOkFor s.name)).length = 0) ∧
    (∀ s ∈ sources, s.enabled = true → ∀ es, s.fetchResult = .ok es →
      ((pollCycle now interval elapsed st sources).2.2.2.1.filter
        (isProcOkFor s.name)).length = 1) ∧
    ((pollCycle now interval elapsed st sources).1.last_poll = some now) := by
  rcases pollAll_spec now sources
      (log_event now st (.cycleStart sources.length) .info) hg hnd with
    ⟨iA, iB, iC, iD, iE, iH, iF, iG⟩
  have hevs : (pollCycle now interval elapsed st sources).2.2.2.1 =
      Ev.logged .info (.cycleStart sources.length) ::
        ((pollAll now sources
            (log_event now st (.cycleStart sources.length) .info)).2.2.2 ++
          [Ev.logged
            (if (pollAll now sources
                (log_event now st
                  (.cycleStart sources.length) .info)).2.2.1.length ≠ 0 then
              LogLevel.success
             else .info)
            (if (pollAll now sources
                (log_event now st
                  (.cycleStart sources.length) .info)).2.2.1.length ≠ 0 then
              LogMsg.discovered (pollAll now sources
                (log_event now st
                  (.cycleStart sources.length) .info)).2.2.1.length
             else .noneThisCycle),
           Ev.endSleep (max (interval - elapsed) 5)]) := rfl
  have hlvl : (if (pollAll now sources
      (log_event now st (.cycleStart sources.length) .info)).2.2.1.length ≠ 0
        then LogLevel.success else .info) ≠ LogLevel.error := by
    split
    · simp
    · simp
  have hE1 : (pollCycle now interval elapsed st sources).1.error_count =
      (pollAll now sources
        (log_event now st (.cycleStart sources.length) .info)).1.error_count :=
    rfl
  have hS1 : (pollCycle now interval elapsed st sources).1.success_count =
      (pollAll now sources
        (log_event now st
          (.cycleStart sources.length) .info)).1.success_count := rfl
  have hH1 : (pollCycle now interval elapsed st sources).2.1 =
      (pollAll now sources
        (log_event now st (.cycleStart sources.length) .info)).2.1 := rfl
  refine ⟨?_, ?_, ?_, ?_, ?_, ?_, rfl⟩
  · rw [hevs, List.filterMap_cons]
    rw [show evFetchName (Ev.logged .info (.cycleStart sources.length)) =
      none from rfl]
    rw [List.filterMap_append, iA]
    have : ([Ev.logged
        (if (pollAll now sources
            (log_event now st
              (.cycleStart sources.length) .info)).2.2.1.length ≠ 0 then
          LogLevel.success
         else .info)
        (if (pollAll now sources
            (log_event now st
              (.cycleStart sources.length) .info)).2.2.1.length ≠ 0 then
          LogMsg.discovered (pollAll now sources
            (log_event now st
              (.cycleStart sources.length) .info)).2.2.1.length
         else .noneThisCycle),
       Ev.endSleep (max (interval - elapsed) 5)] : List Ev).filterMap
        evFetchName = [] := rfl
    rw [this, List.append_nil]
  · rw [hE1, iB]
    rfl
  · rw [hS1, iC]
    rfl
  · rw [hH1]
    exact iE
  · intro s hs hsen e hsf
    rcases iF s hs hsen e hsf with ⟨iF1, iF2⟩
    constructor
    · rw [hevs, List.filter_cons]
      rw [show isErrorLogFor s.name e
        (Ev.logged .info (.cycleStart sources.length)) = false from rfl]
      simp only [Bool.false_eq_true, if_false]
      rw [List.filter_append, wrapEvs_filter_errorLog _ _ _ _ hlvl,
        List.append_nil]
      exact iF1
    · rw [hevs, List.filter_cons]
      rw [show isProcOkFor s.name
        (Ev.logged .info (.cycleStart sources.length)) = false from rfl]
      simp only [Bool.false_eq_true, if_false]
      rw [List.filter_append,
        show (([Ev.logged
          (if (pollAll now sources
              (log_event now st
                (.cycleStart sources.length) .info)).2.2.1.length ≠ 0 then
            LogLevel.success
           else .info)
          (if (pollAll now sources
              (log_event now st
                (.cycleStart sources.length) .info)).2.2.1.length ≠ 0 then
            LogMsg.discovered (pollAll now sources
              (log_event now st
                (.cycleStart sources.length) .info)).2.2.1.length
           else .noneThisCycle),
         Ev.endSleep (max (interval - elapsed) 5)] : List Ev).filter
          (isProcOkFor s.name)) = [] from rfl, List.append_nil]
      exact iF2
  · intro s hs hsen es hsf
    have iG1 := iG s hs hsen es hsf
    rw [hevs, List.filter_cons]
    rw [show isProcOkFor s.name
      (Ev.logged .info (.cycleStart sources.length)) = false from rfl]
    simp only [Bool.false_eq_true, if_false]
    rw [List.filter_append,
      show (([Ev.logged
        (if (pollAll now sources
            (log_event now st
              (.cycleStart sources.length) .info)).2.2.1.length ≠ 0 then
          LogLevel.success
         else .info)
        (if (pollAll now sources
            (log_event now st
              (.cycleStart sources.length) .info)).2.2.1.length ≠ 0 then
          LogMsg.discovered (pollAll now sources
            (log_event now st
              (.cycleStart sources.length) .info)).2.2.1.length
         else .noneThisCycle),
       Ev.endSleep (max (interval - elapsed) 5)] : List Ev).filter
        (isProcOkFor s.name)) = [] from rfl, List.append_nil]
    exact iG1

/-- Witness for C3 at a concrete two-source cycle where the second source
fails: the error counter records exactly the one failing source and the
success counter the one succeeding source. -/
theorem cycle_failure_isolation_witness :
    (pollCycle 7 60 3 initialState [wSrcOk, wSrcBad]).1.error_count =
      initialState.error_count +
        (([wSrcOk, wSrcBad]).filter
          (fun s => s.enabled && fetchFailed s)).length ∧
    (pollCycle 7 60 3 initialState [wSrcOk, wSrcBad]).1.success_count =
      initialState.success_count +
        (([wSrcOk, wSrcBad]).filter
          (fun s => s.enabled && !fetchFailed s)).length ∧
    (pollCycle 7 60 3 initialState [wSrcOk, wSrcBad]).1.last_poll = some 7 := by
  have h := cycle_failure_isolation 7 60 3 initialState [wSrcOk, wSrcBad]
    (by decide) (by decide)
  exact ⟨h.2.1, h.2.2.1, h.2.2.2.2.2.2⟩

theorem pollAll_nosleep (now : Nat) :
    ∀ (sources : List SourceSpec) (st : AppState),
      (∀ s ∈ sources, s.enabled = false ∨ fetchFailed s = true) →
      ((pollAll now sources st).2.2.2.filter isRateSleepEv) = [] := by
  intro sources
  induction sources with
  | nil => intro st _; simp [pollAll]
  | cons src rest ih =>
    intro st hfail
    rcases hfail src (List.mem_cons_self _ _) with hen | hff
    · have hpa : pollAll now (src :: rest) st =
          ((pollAll now rest st).1, src :: (pollAll now rest st).2.1,
            (pollAll now rest st).2.2.1, (pollAll now rest st).2.2.2) := by
        rw [pollAll, pollOne_disabled hen]
        simp
      rw [hpa]
      exact ih st fun s hs => hfail s (List.mem_cons_of_mem _ hs)
    · cases hen : src.enabled with
      | false =>
        have hpa : pollAll now (src :: rest) st =
            ((pollAll now rest st).1, src :: (pollAll now rest st).2.1,
              (pollAll now rest st).2.2.1, (pollAll now rest st).2.2.2) := by
          rw [pollAll, pollOne_disabled hen]
          simp
        rw [hpa]
        exact ih st fun s hs => hfail s (List.mem_cons_of_mem _ hs)
      | true =>
        cases hfr : src.fetchResult with
        | ok entries => rw [fetchFailed, hfr] at hff; cases hff
        | error e =>
          have hr1 := @pollOne_fetch_error now st _ _ hen hfr
          have hpa : (pollAll now (src :: rest) st).2.2.2 =
              ([Ev.fetch src.name,
                Ev.logged .error (.sourceError src.name e)] : List Ev) ++
                (pollAll now rest
                  ({ log_event now st (.sourceError src.name e) .error with
                      error_count := st.error_count + 1 })).2.2.2 := by
            rw [pollAll, hr1]
          rw [hpa, List.filter_append]
          rw [show (([Ev.fetch src.name,
            Ev.logged .error (.sourceError src.name e)] : List Ev).filter
              isRateSleepEv) = [] from rfl, List.nil_append]
          exact ih _ fun s hs => hfail s (List.mem_cons_of_mem _ hs)

/-- C9: within a cycle, a source's configured rate-limit delay is slept
only on its success path — after fetch and processing complete and only
when the delay is positive, as the final event of that source's segment;
on any failure path (fetch error or processing error) no rate-limit sleep
occurs before the loop moves on; and a cycle in which every enabled
source fails contains no rate-limit sleep at all. -/
theorem rate_limit_sleep_spec (now : Nat) :
    (∀ (st : AppState) (src : SourceSpec), src.enabled = true →
      (∀ e, src.fetchResult = .error e →
        ((pollOne now st src).2.2.2.filter isRateSleepEv) = []) ∧
      (∀ entries st1, src.fetchResult = .ok entries →
        process_entries now entries src.name st = .error st1 →
        ((pollOne now st src).2.2.2.filter isRateSleepEv) = []) ∧
      (∀ entries st1 newCands, src.fetchResult = .ok entries →
        process_entries now entries src.name st = .ok (st1, newCands) →
        (¬ 0 < src.rate_limit_delay →
          ((pollOne now st src).2.2.2.filter isRateSleepEv) = []) ∧
        (0 < src.rate_limit_delay →
          ∃ pre, (pollOne now st src).2.2.2 =
            pre ++ [Ev.rateSleep src.name src.rate_limit_delay] ∧
            pre.filter isRateSleepEv = [] ∧
            Ev.fetch src.name ∈ pre ∧
            Ev.procOk src.name entries.length newCands.length ∈ pre))) ∧
    (∀ (interval elapsed : ℚ) (st : AppState) (sources : List SourceSpec),
      (∀ s ∈ sources, s.enabled = false ∨ fetchFailed s = true) →
      ((pollCycle now interval elapsed st sources).2.2.2.1.filter
        isRateSleepEv) = []) := by
  constructor
  · intro st src hen
    refine ⟨?_, ?_, ?_⟩
    · intro e hf
      rw [pollOne_fetch_error hen hf]
      rfl
    · intro entries st1 hf hpe
      rw [pollOne_proc_error hen hf hpe]
      rfl
    · intro entries st1 newCands hf hpe
      rw [pollOne_fetch_ok hen hf hpe]
      constructor
      · intro hd
        simp [hd, List.filter_append, List.filter_cons, isRateSleepEv,
          filter_newCand_rateSleep_nil]
      · intro hd
        refine ⟨Ev.fetch src.name ::
          newCands.map (fun c => Ev.logged .success
            (.newCandidate c.code (srcDescOf src.name)
              c.confidence_score)) ++
          [Ev.procOk src.name entries.length newCands.length,
           Ev.logged .debug
             (.sourceOk src.name entries.length newCands.length)], ?_, ?_, ?_, ?_⟩
        · rw [if_pos hd]
        · simp [List.filter_append, List.filter_cons, isRateSleepEv,
            filter_newCand_rateSleep_nil]
        · exact List.mem_append.mpr (Or.inl (List.mem_cons_self _ _))
        · exact List.mem_append.mpr (Or.inr (List.mem_cons_self _ _))
  · intro interval elapsed st sources hfail
    have hevs : (pollCycle now interval elapsed st sources).2.2.2.1 =
        Ev.logged .info (.cycleStart sources.length) ::
          ((pollAll now sources
              (log_event now st (.cycleStart sources.length) .info)).2.2.2 ++
            [Ev.logged
              (if (pollAll now sources
                  (log_event now st
                    (.cycleStart sources.length) .info)).2.2.1.length ≠ 0 then
                LogLevel.success
               else .info)
              (if (pollAll now sources
                  (log_event now st
                    (.cycleStart sources.length) .info)).2.2.1.length ≠ 0 then
                LogMsg.discovered (pollAll now sources
                  (log_event now st
                    (.cycleStart sources.length) .info)).2.2.1.length
               else .noneThisCycle),
             Ev.endSleep (max (interval - elapsed) 5)]) := rfl
    rw [hevs, List.filter_cons]
    rw [show isRateSleepEv
      (Ev.logged .info (.cycleStart sources.length)) = false from rfl]
    simp only [Bool.false_eq_true, if_false]
    rw [List.filter_append, pollAll_nosleep now sources _ hfail,
      List.nil_append]
    rfl

/-- Witness for C9: the concrete failing source sleeps no rate-limit
delay despite its positive configured delay. -/
theorem rate_limit_sleep_spec_witness :
    ((pollOne 0 initialState wSrcBad).2.2.2.filter isRateSleepEv) = [] :=
  ((rate_limit_sleep_spec 0).1 initialState wSrcBad rfl).1 "boom".toList rfl


theorem toNat_ofNat_small {n : Nat} (h : n < 55296) :
    (Char.ofNat n).toNat = n := by
  unfold Char.ofNat
  rw [dif_pos (Or.inl h)]
  rfl

theorem toNat_injective {a b : Char} (h : a.toNat = b.toNat) : a = b := by
  apply Char.eq_of_val_eq
  exact UInt32.ext h

theorem toLower_toNat (c : Char) :
    (c.toLower).toNat =
      if 65 ≤ c.toNat ∧ c.toNat ≤ 90 then c.toNat + 32 else c.toNat := by
  by_cases h : 65 ≤ c.toNat ∧ c.toNat ≤ 90
  · rw [if_pos h]
    unfold Char.toLower
    rw [if_pos ⟨h.1, h.2⟩]
    exact toNat_ofNat_small (by omega)
  · rw [if_neg h]
    unfold Char.toLower
    rw [if_neg fun hc => h ⟨hc.1, hc.2⟩]

theorem isPySpace_toNat {b : Char} (hb : isPySpace b = true) :
    b.toNat = 32 ∨ b.toNat = 9 ∨ b.toNat = 10 ∨ b.toNat = 13 ∨
      b.toNat = 11 ∨ b.toNat = 12 := by
  unfold isPySpace at hb
  simp only [Bool.or_eq_true, beq_iff_eq] at hb
  rcases hb with ((((rfl | rfl) | rfl) | rfl) | rfl) | rfl <;> simp

theorem ciEq_not_space {a b : Char} (h : ciEq a b = true)
    (ha : isPySpace a = false) : isPySpace b = false := by
  by_contra hcon
  have hb : isPySpace b = true := by
    cases hbb : isPySpace b
    · exact absurd hbb hcon
    · rfl
  have heq : a.toLower = b.toLower := by
    unfold ciEq at h
    exact beq_iff_eq.mp h
  have hnat : (a.toLower).toNat = (b.toLower).toNat := by rw [heq]
  rw [toLower_toNat, toLower_toNat] at hnat
  have hbv := isPySpace_toNat hb
  have hbsmall : ¬(65 ≤ b.toNat ∧ b.toNat ≤ 90) := by omega
  rw [if_neg hbsmall] at hnat
  by_cases hal : 65 ≤ a.toNat ∧ a.toNat ≤ 90
  · rw [if_pos hal] at hnat
    omega
  · rw [if_neg hal] at hnat
    have : a = b := toNat_injective hnat
    rw [this, hb] at ha
    cases ha

theorem ciPrefixOf_length : ∀ {n s : List Char},
    ciPrefixOf n s = true → n.length ≤ s.length := by
  intro n
  induction n with
  | nil => intro s _; simp
  | cons a as ih =>
    intro s h
    cases s with
    | nil => simp [ciPrefixOf] at h
    | cons b bs =>
      rw [ciPrefixOf, Bool.and_eq_true] at h
      simpa [Nat.succ_le_succ_iff] using ih h.2

theorem ciPrefixOf_take : ∀ {n s : List Char} {k : Nat},
    ciPrefixOf n s = true → n.length ≤ k →
    ciPrefixOf n (s.take k) = true := by
  intro n
  induction n with
  | nil => intro s k _ _; rfl
  | cons a as ih =>
    intro s k h hk
    cases s with
    | nil => simp [ciPrefixOf] at h
    | cons b bs =>
      cases k with
      | zero => simp at hk
      | succ k2 =>
        rw [List.take_succ_cons]
        rw [ciPrefixOf, Bool.and_eq_true] at h
        rw [ciPrefixOf, Bool.and_eq_true]
        exact ⟨h.1, ih h.2 (by simpa [Nat.succ_le_succ_iff] using hk)⟩

theorem ciPrefixOf_map_nl {n : List Char}
    (hn : ∀ c ∈ n, isPySpace c = false) :
    ∀ s, ciPrefixOf n s = true → ciPrefixOf n (s.map nlToSpace) = true := by
  induction n with
  | nil => intro s _; rfl
  | cons a as ih =>
    intro s h
    cases s with
    | nil => simp [ciPrefixOf] at h
    | cons b bs =>
      rw [ciPrefixOf, Bool.and_eq_true] at h
      rw [List.map_cons]
      have hb : isPySpace b = false :=
        ciEq_not_space h.1 (hn a (List.mem_cons_self _ _))
      have hbn : b ≠ '\n' := by
        intro hcon
        rw [hcon] at hb
        exact absurd hb (by decide)
      have hmapb : nlToSpace b = b := by
        unfold nlToSpace
        rw [if_neg hbn]
      rw [hmapb, ciPrefixOf, Bool.and_eq_true]
      exact ⟨h.1, ih (fun c hc => hn c (List.mem_cons_of_mem _ hc)) bs h.2⟩

theorem findCI_sound {n : List Char} :
    ∀ {s : List Char} {i : Nat}, findCI n s = some i →
      ciPrefixOf n (s.drop i) = true := by
  intro s
  induction s with
  | nil =>
    intro i h
    rw [findCI] at h
    split at h
    · injection h with h2
      subst h2
      simpa using (by assumption : ciPrefixOf n [] = true)
    · cases h
  | cons c rest ih =>
    intro i h
    rw [findCI] at h
    split at h
    · injection h with h2
      subst h2
      simpa using (by assumption : ciPrefixOf n (c :: rest) = true)
    · rcases Option.map_eq_some'.mp h with ⟨j, hj, rfl⟩
      rw [List.drop_succ_cons]
      exact ih hj

theorem findCI_complete {n : List Char} :
    ∀ {s : List Char}, findCI n s = none →
      ∀ i, ciPrefixOf n (s.drop i) = false := by
  intro s
  induction s with
  | nil =>
    intro h i
    rw [findCI] at h
    split at h
    · cases h
    · cases hp : ciPrefixOf n ([].drop i)
      · rfl
      · rw [List.drop_nil] at hp
        rename_i hfalse
        exact absurd hp hfalse
  | cons c rest ih =>
    intro h i
    rw [findCI] at h
    split at h
    · cases h
    · cases i with
      | zero =>
        cases hp : ciPrefixOf n ((c :: rest).drop 0)
        · rfl
        · rw [List.drop_zero] at hp
          rename_i hfalse
          exact absurd hp hfalse
      | succ j =>
        rw [List.drop_succ_cons]
        have hrest : findCI n rest = none := by
          cases hfr : findCI n rest
          · rfl
          · rw [hfr] at h
            cases h
        exact ih hrest j

theorem takeWhile_eq_take_len (p : Char → Bool) (l : List Char) :
    l.takeWhile p = l.take (l.takeWhile p).length :=
  List.prefix_iff_eq_take.mp (List.takeWhile_prefix p)

theorem rstrip_decomp (p : Char → Bool) (m : List Char) :
    (m.reverse.dropWhile p).reverse =
      m.take (m.length - (m.reverse.takeWhile p).length) ∧
    (∀ c ∈ m.drop (m.length - (m.reverse.takeWhile p).length), p c = true) := by
  have ht : (m.reverse.takeWhile p).length ≤ m.length := by
    have h1 := (@List.takeWhile_prefix _ m.reverse p).length_le
    simpa using h1
  constructor
  · rw [dropWhile_eq_drop_len, List.drop_reverse, List.reverse_reverse]
  · intro c hc
    have hc2 : c ∈ (m.drop (m.length - (m.reverse.takeWhile p).length)).reverse :=
      List.mem_reverse.mpr hc
    rw [← List.take_reverse] at hc2
    rw [← takeWhile_eq_take_len] at hc2
    exact List.mem_takeWhile_imp hc2

theorem ciPrefixOf_nil_ne {n : List Char} (hne : n ≠ []) :
    ciPrefixOf n [] = false := by
  cases n with
  | nil => exact absurd rfl hne
  | cons a as => rfl

theorem ciPrefix_fit {b : List Char} (hb : ∀ c ∈ b, isPySpace c = true) :
    ∀ (n a : List Char), (∀ c ∈ n, isPySpace c = false) →
      ciPrefixOf n (a ++ b) = true → ciPrefixOf n a = true := by
  intro n
  induction n with
  | nil => intro a _ _; rfl
  | cons x n2 ih =>
    intro a hn h
    cases a with
    | nil =>
      rw [List.nil_append] at h
      cases b with
      | nil => simp [ciPrefixOf] at h
      | cons d bs =>
        rw [ciPrefixOf, Bool.and_eq_true] at h
        have hd : isPySpace d = false :=
          ciEq_not_space h.1 (hn x (List.mem_cons_self _ _))
        rw [hb d (List.mem_cons_self _ _)] at hd
        cases hd
    | cons y a2 =>
      rw [List.cons_append, ciPrefixOf, Bool.and_eq_true] at h
      rw [ciPrefixOf, Bool.and_eq_true]
      exact ⟨h.1, ih a2 (fun c hc => hn c (List.mem_cons_of_mem _ hc)) h.2⟩

theorem ciPrefix_append_spaces {n : List Char}
    (hn : ∀ c ∈ n, isPySpace c = false) (hne : n ≠ []) :
    ∀ (a b : List Char), (∀ c ∈ b, isPySpace c = true) →
    ∀ p, ciPrefixOf n ((a ++ b).drop p) = true →
      ∃ q, ciPrefixOf n (a.drop q) = true := by
  intro a b hb p h
  rcases Nat.le_total p a.length with hle | hge
  · rw [List.drop_append_of_le_length hle] at h
    exact ⟨p, ciPrefix_fit hb n (a.drop p) hn h⟩
  · exfalso
    have hform : (a ++ b).drop p = b.drop (p - a.length) := by
      rw [List.drop_append_eq_append_drop, List.drop_eq_nil_of_le hge,
        List.nil_append]
    rw [hform] at h
    cases hbd : b.drop (p - a.length) with
    | nil =>
      rw [hbd] at h
      rw [ciPrefixOf_nil_ne hne] at h
      cases h
    | cons d bs =>
      rw [hbd] at h
      cases n with
      | nil => exact absurd rfl hne
      | cons x n2 =>
        rw [ciPrefixOf, Bool.and_eq_true] at h
        have hd : isPySpace d = false :=
          ciEq_not_space h.1 (hn x (List.mem_cons_self _ _))
        have hdb : d ∈ b := by
          have : d ∈ b.drop (p - a.length) := by
            rw [hbd]; exact List.mem_cons_self _ _
          exact List.mem_of_mem_drop this
        rw [hb d hdb] at hd
        cases hd

theorem occ_dropWhile_space {n : List Char}
    (hn : ∀ c ∈ n, isPySpace c = false) (hne : n ≠ []) :
    ∀ (l : List Char) (p : Nat), ciPrefixOf n (l.drop p) = true →
      ∃ q, ciPrefixOf n ((l.dropWhile isPySpace).drop q) = true := by
  intro l
  induction l with
  | nil =>
    intro p h
    rw [List.drop_nil, ciPrefixOf_nil_ne hne] at h
    cases h
  | cons c rest ih =>
    intro p h
    cases hc : isPySpace c with
    | false =>
      rw [List.dropWhile_cons_of_neg (by rw [hc]; exact Bool.false_ne_true)]
      exact ⟨p, h⟩
    | true =>
      rw [List.dropWhile_cons_of_pos hc]
      cases p with
      | zero =>
        rw [List.drop_zero] at h
        cases n with
        | nil => exact absurd rfl hne
        | cons x n2 =>
          rw [ciPrefixOf, Bool.and_eq_true] at h
          have := ciEq_not_space h.1 (hn x (List.mem_cons_self _ _))
          rw [hc] at this
          cases this
      | succ p2 =>
        rw [List.drop_succ_cons] at h
        exact ih p2 h

theorem strip_preserves_occ {n : List Char}
    (hn : ∀ c ∈ n, isPySpace c = false) (hne : n ≠ []) (l : List Char)
    (h : ∃ p, ciPrefixOf n (l.drop p) = true) :
    ∃ q, ciPrefixOf n ((pyStrip l).drop q) = true := by
  obtain ⟨p, hp⟩ := h
  obtain ⟨p2, hp2⟩ := occ_dropWhile_space hn hne l p hp
  unfold pyStrip
  obtain ⟨hform, hsp⟩ := rstrip_decomp isPySpace (l.dropWhile isPySpace)
  rw [hform]
  have hsplit := (List.take_append_drop
    ((l.dropWhile isPySpace).length -
      ((l.dropWhile isPySpace).reverse.takeWhile isPySpace).length)
    (l.dropWhile isPySpace)).symm
  rw [hsplit] at hp2
  exact ciPrefix_append_spaces hn hne _ _ hsp p2 hp2

theorem markOpen_chars : markOpen = ['<', 'm', 'a', 'r', 'k', '>'] := rfl

theorem markClose_chars :
    markClose = ['<', '/', 'm', 'a', 'r', 'k', '>'] := rfl

theorem okOutput_nil : okOutput [] = true := by
  simp [okOutput]

theorem okOutput_markOpen (t : List Char) :
    okOutput (markOpen ++ t) = okOutput t := by
  rw [markOpen_chars]
  simp only [List.cons_append, List.nil_append]
  simp only [okOutput]
  simp +decide [markOpen_chars, markClose_chars, List.isPrefixOf]

theorem okOutput_markClose (t : List Char) :
    okOutput (markClose ++ t) = okOutput t := by
  rw [markClose_chars]
  simp only [List.cons_append, List.nil_append]
  simp only [okOutput]
  simp +decide [markOpen_chars, markClose_chars, List.isPrefixOf]

theorem okOutput_ent_amp (t : List Char) :
    okOutput ("&amp;".toList ++ t) = okOutput t := by
  have hch : ("&amp;".toList : List Char) = ['&', 'a', 'm', 'p', ';'] := rfl
  rw [hch]
  simp only [List.cons_append, List.nil_append]
  simp only [okOutput]
  simp +decide [markOpen_chars, markClose_chars, List.isPrefixOf]

theorem okOutput_ent_lt (t : List Char) :
    okOutput ("&lt;".toList ++ t) = okOutput t := by
  have hch : ("&lt;".toList : List Char) = ['&', 'l', 't', ';'] := rfl
  rw [hch]
  simp only [List.cons_append, List.nil_append]
  simp only [okOutput]
  simp +decide [markOpen_chars, markClose_chars, List.isPrefixOf]

theorem okOutput_ent_gt (t : List Char) :
    okOutput ("&gt;".toList ++ t) = okOutput t := by
  have hch : ("&gt;".toList : List Char) = ['&', 'g', 't', ';'] := rfl
  rw [hch]
  simp only [List.cons_append, List.nil_append]
  simp only [okOutput]
  simp +decide [markOpen_chars, markClose_chars, List.isPrefixOf]

theorem okOutput_ent_quot (t : List Char) :
    okOutput ("&quot;".toList ++ t) = okOutput t := by
  have hch : ("&quot;".toList : List Char) = ['&', 'q', 'u', 'o', 't', ';'] := rfl
  rw [hch]
  simp only [List.cons_append, List.nil_append]
  simp only [okOutput]
  simp +decide [markOpen_chars, markClose_chars, List.isPrefixOf]

theorem okOutput_ent_apos (t : List Char) :
    okOutput ("&#x27;".toList ++ t) = okOutput t := by
  have hch : ("&#x27;".toList : List Char) = ['&', '#', 'x', '2', '7', ';'] := rfl
  rw [hch]
  simp only [List.cons_append, List.nil_append]
  simp only [okOutput]
  simp +decide [markOpen_chars, markClose_chars, List.isPrefixOf]

theorem okOutput_plain {c : Char} (h1 : c ≠ '<') (h2 : c ≠ '>')
    (h3 : c ≠ '&') (t : List Char) :
    okOutput (c :: t) = okOutput t := by
  have h1b : ('<' == c) = false := beq_eq_false_iff_ne.mpr (Ne.symm h1)
  have h3b : ('&' == c) = false := beq_eq_false_iff_ne.mpr (Ne.symm h3)
  simp only [okOutput]
  simp [markOpen_chars, markClose_chars, List.isPrefixOf, h1b, h3b, h1, h2, h3]

theorem okOutput_escChar (c : Char) (t : List Char) :
    okOutput (escChar c ++ t) = okOutput t := by
  by_cases h1 : c = '&'
  · subst h1
    exact okOutput_ent_amp t
  · by_cases h2 : c = '<'
    · subst h2
      exact okOutput_ent_lt t
    · by_cases h3 : c = '>'
      · subst h3
        exact okOutput_ent_gt t
      · by_cases h4 : c = '"'
        · subst h4
          exact okOutput_ent_quot t
        · by_cases h5 : c = Char.ofNat 39
          · subst h5
            exact okOutput_ent_apos t
          · have he : escChar c = [c] := by
              rw [escChar, if_neg h1, if_neg h2, if_neg h3, if_neg h4, if_neg h5]
            rw [he, List.singleton_append]
            exact okOutput_plain h2 h3 h1 t

theorem okOutput_htmlEscape (l t : List Char) :
    okOutput (htmlEscape l ++ t) = okOutput t := by
  induction l with
  | nil => rfl
  | cons c ls ih =>
    have hfe : htmlEscape (c :: ls) = escChar c ++ htmlEscape ls := rfl
    rw [hfe, List.append_assoc, okOutput_escChar, ih]

theorem okOutput_scan_aux (n : List Char) :
    ∀ (k : Nat) (s t : List Char), s.length ≤ k → okOutput t = true →
      okOutput (highlightScan n s ++ t) = true := by
  intro k
  induction k with
  | zero =>
    intro s t hlen ht
    have hs : s = [] := List.length_eq_zero.mp (Nat.le_zero.mp hlen)
    subst hs
    rw [highlightScan]
    by_cases hp : ciPrefixOf n [] = true
    · rw [if_pos hp, List.append_assoc, okOutput_markOpen, okOutput_markClose]
      exact ht
    · rw [if_neg hp, List.nil_append]
      exact ht
  | succ k2 ih =>
    intro s t hlen ht
    cases s with
    | nil =>
      rw [highlightScan]
      by_cases hp : ciPrefixOf n [] = true
      · rw [if_pos hp, List.append_assoc, okOutput_markOpen, okOutput_markClose]
        exact ht
      · rw [if_neg hp, List.nil_append]
        exact ht
    | cons c rest =>
      have hl2 : rest.length ≤ k2 := by
        simp only [List.length_cons] at hlen
        omega
      cases n with
      | nil =>
        have hp0 : ciPrefixOf [] (c :: rest) = true := rfl
        rw [highlightScan, if_pos hp0]
        simp only [List.append_assoc]
        rw [okOutput_markOpen, okOutput_markClose, okOutput_escChar]
        exact ih rest t hl2 ht
      | cons a as =>
        rw [highlightScan]
        by_cases hp : ciPrefixOf (a :: as) (c :: rest) = true
        · rw [if_pos hp]
          simp only [List.append_assoc]
          rw [okOutput_markOpen, okOutput_htmlEscape, okOutput_markClose]
          apply ih _ t _ ht
          rw [List.length_drop]
          simp only [List.length_cons] at hlen ⊢
          omega
        · rw [if_neg hp, List.append_assoc, okOutput_escChar]
          exact ih rest t hl2 ht

theorem okOutput_scan (n s : List Char) :
    okOutput (highlightScan n s) = true := by
  have h := okOutput_scan_aux n s.length s [] le_rfl okOutput_nil
  rwa [List.append_nil] at h

theorem scanDecomp_of_scan_aux :
    ∀ (k : Nat) (n : List Char), n ≠ [] → ∀ (s : List Char), s.length ≤ k →
      ScanDecomp n s (highlightScan n s) := by
  intro k
  induction k with
  | zero =>
    intro n hne s hlen
    have hs : s = [] := List.length_eq_zero.mp (Nat.le_zero.mp hlen)
    subst hs
    have heq : highlightScan n [] = [] := by
      rw [highlightScan,
        if_neg (by rw [ciPrefixOf_nil_ne hne]; exact Bool.false_ne_true)]
    rw [heq]
    exact ScanDecomp.nil
  | succ k2 ih =>
    intro n hne s hlen
    cases s with
    | nil =>
      have heq : highlightScan n [] = [] := by
        rw [highlightScan,
          if_neg (by rw [ciPrefixOf_nil_ne hne]; exact Bool.false_ne_true)]
      rw [heq]
      exact ScanDecomp.nil
    | cons c rest =>
      have hl2 : rest.length ≤ k2 := by
        simp only [List.length_cons] at hlen
        omega
      cases n with
      | nil => exact absurd rfl hne
      | cons a as =>
        cases hpb : ciPrefixOf (a :: as) (c :: rest) with
        | false =>
          have heq : highlightScan (a :: as) (c :: rest) =
              escChar c ++ highlightScan (a :: as) rest := by
            rw [highlightScan,
              if_neg (by rw [hpb]; exact Bool.false_ne_true)]
          rw [heq]
          exact ScanDecomp.skip c rest _ hpb (ih (a :: as) hne rest hl2)
        | true =>
          have heq : highlightScan (a :: as) (c :: rest) =
              markOpen ++ htmlEscape ((c :: rest).take (a :: as).length) ++
                markClose ++
                highlightScan (a :: as) ((c :: rest).drop (a :: as).length) := by
            rw [highlightScan, if_pos hpb]
          rw [heq]
          apply ScanDecomp.found (c :: rest) _ hne hpb
          apply ih (a :: as) hne
          rw [List.length_drop]
          simp only [List.length_cons] at hlen ⊢
          omega

theorem scanDecomp_of_scan {n : List Char} (hne : n ≠ []) (s : List Char) :
    ScanDecomp n s (highlightScan n s) :=
  scanDecomp_of_scan_aux s.length n hne s le_rfl

theorem scan_marker_aux {n : List Char} (hne : n ≠ []) :
    ∀ (k : Nat) (s : List Char), s.length ≤ k →
      (∃ p, ciPrefixOf n (s.drop p) = true) →
      ∃ pre m post, highlightScan n s =
          pre ++ markOpen ++ htmlEscape m ++ markClose ++ post ∧
        m.length = n.length ∧ ciPrefixOf n m = true := by
  intro k
  induction k with
  | zero =>
    intro s hlen hocc
    have hs : s = [] := List.length_eq_zero.mp (Nat.le_zero.mp hlen)
    subst hs
    obtain ⟨p, hp⟩ := hocc
    rw [List.drop_nil, ciPrefixOf_nil_ne hne] at hp
    cases hp
  | succ k2 ih =>
    intro s hlen hocc
    cases s with
    | nil =>
      obtain ⟨p, hp⟩ := hocc
      rw [List.drop_nil, ciPrefixOf_nil_ne hne] at hp
      cases hp
    | cons c rest =>
      cases hpb : ciPrefixOf n (c :: rest) with
      | true =>
        refine ⟨[], (c :: rest).take n.length,
          highlightScan n ((c :: rest).drop n.length), ?_, ?_, ?_⟩
        · cases n with
          | nil => exact absurd rfl hne
          | cons a as =>
            rw [highlightScan, if_pos hpb, List.nil_append]
        · rw [List.length_take]
          exact Nat.min_eq_left (ciPrefixOf_length hpb)
        · exact ciPrefixOf_take hpb le_rfl
      | false =>
        obtain ⟨p, hp⟩ := hocc
        cases p with
        | zero =>
          rw [List.drop_zero, hpb] at hp
          cases hp
        | succ p2 =>
          rw [List.drop_succ_cons] at hp
          have hl2 : rest.length ≤ k2 := by
            simp only [List.length_cons] at hlen
            omega
          obtain ⟨pre, m, post, heq, hm1, hm2⟩ := ih rest hl2 ⟨p2, hp⟩
          refine ⟨escChar c ++ pre, m, post, ?_, hm1, hm2⟩
          cases n with
          | nil => exact absurd rfl hne
          | cons a as =>
            rw [highlightScan,
              if_neg (by rw [hpb]; exact Bool.false_ne_true), heq]
            simp [List.append_assoc]

theorem build_eq_empty (title body token : List Char)
    (h : combinedOf title body = []) :
    build_example_snippet title body token =
      htmlEscape (if title = [] then token else title) := by
  simp only [build_example_snippet]
  rw [if_pos h]

theorem build_eq_scan (title body token : List Char)
    (h : combinedOf title body ≠ []) :
    build_example_snippet title body token =
      highlightScan token (snippetOf title body token) := by
  simp only [build_example_snippet]
  rw [if_neg h]

/-- C6: for every title, body and non-empty whitespace-free token, the
output of `_build_example_snippet` passes the HTML-safety checker (no
unescaped `<`, `>` or `&` outside the `<mark>`/`</mark>` tags); when the
token occurs case-insensitively in the combined title/body text the output
contains the highlight marker wrapping a case-insensitive occurrence of
the token; and the output decomposes the windowed snippet by the
left-to-right non-overlapping scan, so every occurrence met by the scan is
wrapped and the marker markup itself is never re-escaped. -/
theorem build_example_snippet_spec (title body token : List Char)
    (hne : token ≠ []) (hsp : ∀ c ∈ token, isPySpace c = false) :
    okOutput (build_example_snippet title body token) = true ∧
    ((∃ i, ciPrefixOf token ((combinedOf title body).drop i) = true) →
      ∃ pre m post,
        build_example_snippet title body token =
          pre ++ markOpen ++ htmlEscape m ++ markClose ++ post ∧
        m.length = token.length ∧ ciPrefixOf token m = true) ∧
    (combinedOf title body ≠ [] →
      ScanDecomp token (snippetOf title body token)
        (build_example_snippet title body token)) := by
  refine ⟨?_, ?_, ?_⟩
  · by_cases hcomb : combinedOf title body = []
    · rw [build_eq_empty title body token hcomb]
      have h := okOutput_htmlEscape (if title = [] then token else title) []
      rw [List.append_nil] at h
      rw [h]
      exact okOutput_nil
    · rw [build_eq_scan title body token hcomb]
      exact okOutput_scan token (snippetOf title body token)
  · intro hocc
    have hcomb : combinedOf title body ≠ [] := by
      intro hc
      obtain ⟨i, hi⟩ := hocc
      rw [hc, List.drop_nil, ciPrefixOf_nil_ne hne] at hi
      cases hi
    rw [build_eq_scan title body token hcomb]
    apply scan_marker_aux hne (snippetOf title body token).length _ le_rfl
    obtain ⟨i0, hfc⟩ : ∃ i, findCI token (combinedOf title body) = some i := by
      cases hf : findCI token (combinedOf title body) with
      | none =>
        exfalso
        obtain ⟨i, hi⟩ := hocc
        have hc := findCI_complete hf i
        rw [hi] at hc
        cases hc
      | some j => exact ⟨j, rfl⟩
    have hpi : ciPrefixOf token ((combinedOf title body).drop i0) = true :=
      findCI_sound hfc
    have hsn : snippetOf title body token =
        pyStrip ((((combinedOf title body).drop (i0 - 60)).take
          (min (i0 + token.length + 60) (combinedOf title body).length -
            (i0 - 60))).map nlToSpace) := by
      simp only [snippetOf]
      rw [hfc]
    rw [hsn]
    apply strip_preserves_occ hsp hne
    refine ⟨i0 - (i0 - 60), ?_⟩
    rw [← List.map_drop]
    apply ciPrefixOf_map_nl hsp
    rw [List.drop_take, List.drop_drop]
    have hst : (i0 - 60) + (i0 - (i0 - 60)) = i0 := by omega
    rw [hst]
    apply ciPrefixOf_take hpi
    have hlen1 : 1 ≤ token.length := List.length_pos.mpr hne
    have hL : i0 + token.length ≤ (combinedOf title body).length := by
      have h1 := ciPrefixOf_length hpi
      rw [List.length_drop] at h1
      omega
    omega
  · intro hcomb
    rw [build_eq_scan title body token hcomb]
    exact scanDecomp_of_scan hne (snippetOf title body token)

/-- C6 counterexample: (i) the token may occur in the combined text while
the output contains no marker at all — the combined text keeps its
newline, but the windowed snippet has newlines collapsed to spaces, so a
token containing a newline never matches (title `A`, body `B`, token
`A\nB`); (ii) not every case-insensitive occurrence within the snippet is
wrapped: overlapping occurrences are skipped by the non-overlapping scan
(snippet `A1A1A1A` holds two occurrences of `A1A1A`, the output holds one
marker). -/
theorem build_example_snippet_claim_ce :
    (∃ i, ciPrefixOf ['A', '\n', 'B']
        ((combinedOf "A".toList "B".toList).drop i) = true) ∧
    countExactOcc markOpen
      (build_example_snippet "A".toList "B".toList ['A', '\n', 'B']) = 0 ∧
    countCIOcc "A1A1A".toList
      (snippetOf "A1A1A1A".toList [] "A1A1A".toList) = 2 ∧
    countExactOcc markOpen
      (build_example_snippet "A1A1A1A".toList [] "A1A1A".toList) = 1 := by
  refine ⟨⟨0, by decide⟩, ?_, by decide, ?_⟩
  · have hb1 := build_eq_scan "A".toList "B".toList ['A', '\n', 'B']
      (by decide)
    have hsn1 : snippetOf "A".toList "B".toList ['A', '\n', 'B'] =
        ['A', ' ', 'B'] := by decide
    have hhl1 : highlightScan ['A', '\n', 'B'] ['A', ' ', 'B'] =
        ['A', ' ', 'B'] := by
      simp +decide [highlightScan, escChar]
    rw [hb1, hsn1, hhl1]
    decide
  · have hb2 := build_eq_scan "A1A1A1A".toList [] "A1A1A".toList (by decide)
    have htk : ("A1A1A".toList : List Char) = ['A', '1', 'A', '1', 'A'] := rfl
    have hsn2 : snippetOf "A1A1A1A".toList [] "A1A1A".toList =
        ['A', '1', 'A', '1', 'A', '1', 'A'] := by decide
    have hhl2 : highlightScan ['A', '1', 'A', '1', 'A']
        ['A', '1', 'A', '1', 'A', '1', 'A'] =
        ['<', 'm', 'a', 'r', 'k', '>', 'A', '1', 'A', '1', 'A',
         '<', '/', 'm', 'a', 'r', 'k', '>', '1', 'A'] := by
      simp +decide [highlightScan, escChar, htmlEscape, markOpen_chars,
        markClose_chars]
    rw [hb2, hsn2, htk, hhl2]
    decide

/-- Witness for C6: a concrete title containing the token, with the three
conclusions instantiated and all hypotheses discharged. -/
theorem build_example_snippet_spec_witness :
    okOutput (build_example_snippet "AB12C here".toList [] "AB12C".toList) =
      true ∧
    (∃ pre m post,
        build_example_snippet "AB12C here".toList [] "AB12C".toList =
          pre ++ markOpen ++ htmlEscape m ++ markClose ++ post ∧
        m.length = ("AB12C".toList : List Char).length ∧
        ciPrefixOf "AB12C".toList m = true) ∧
    ScanDecomp "AB12C".toList
      (snippetOf "AB12C here".toList [] "AB12C".toList)
      (build_example_snippet "AB12C here".toList [] "AB12C".toList) := by
  have h := build_example_snippet_spec "AB12C here".toList [] "AB12C".toList
    (by decide) (by decide)
  exact ⟨h.1, h.2.1 ⟨0, by decide⟩, h.2.2 (by decide)⟩

end SoraHunt
